import Mathlib

/- Verification development for the inline-template migration schematic
   (migrar-templates).  The code rewrites Angular component files that embed
   a literal template inside the at-Component decorator object: it extracts
   the literal into an external file and replaces the decorator entry by a
   templateUrl reference, adjusting the comma separators around the removed
   entry.  Everything below is a shallow embedding of that code: file text is
   a list of characters, the syntax-tree positions of a decorator property
   are a record of offsets, and the Angular virtual tree is an association
   list from paths to contents. -/

namespace MigrarTemplates

/-- Special characters, named so that the development never has to spell
them inside string literals. -/
def quoteChar : Char := Char.ofNat 39

def backtickChar : Char := Char.ofNat 96

def lbraceChar : Char := Char.ofNat 123

def rbraceChar : Char := Char.ofNat 125

def dquoteChar : Char := Char.ofNat 34

/-- Whitespace characters, the class matched by the JavaScript regex
escape backslash-s on the texts this schematic manipulates. -/
def isWsChar (c : Char) : Bool :=
  c = ' ' || c = '\t' || c = '\n' || c = '\r' || c = '\x0b' || c = '\x0c'

/-- Length of the leading whitespace run of a character list. -/
def wsCount (s : List Char) : Nat :=
  (s.takeWhile isWsChar).length

/-- Embedding of `textAfterNode.match(/^\s*,/)` from the migration rule: a
match consumes optional whitespace and then one comma, and the result is the
length of the matched text. -/
def commaMatchAfterLen (s : List Char) : Option Nat :=
  match s.drop (wsCount s) with
  | c :: _ => if c = ',' then some (wsCount s + 1) else none
  | [] => none

/-- Embedding of `textBeforeNode.match(/,\s*$/)`: a match is a comma followed
only by whitespace up to the end of the text; the result is the length of the
matched text.  (The regex finds the last comma after which only whitespace
remains, so the match length is the trailing whitespace run plus one.) -/
def commaMatchBeforeLen (s : List Char) : Option Nat :=
  match s.reverse.drop (wsCount s.reverse) with
  | c :: _ => if c = ',' then some (wsCount s.reverse + 1) else none
  | [] => none

/-- Offsets of one decorator property node in the file text, as TypeScript
reports them: `fullStart` = `getFullStart()` (leading trivia included),
`start` = `getStart()` (first token), `endPos` = `getEnd()`. -/
structure PropertyNode where
  fullStart : Nat
  start : Nat
  endPos : Nat
deriving Repr, DecidableEq

/-- Result of the removal-range computation of the migration rule. -/
structure RemovalPlan where
  removalStart : Nat
  removalEnd : Nat
  needsCommaInserted : Bool
deriving Repr, DecidableEq

/-- Embedding of the removal-range logic of `migrarTemplates`
(src/src/migrar-templates/index.ts, lines 169-203): start from the node's
full span; with more than one property, first look for a comma after the
node (extend the removal and request a trailing comma on the replacement),
otherwise look for a comma before the node's full start (retract the removal
start, no trailing comma). -/
def computeRemovalRange (text : List Char) (node : PropertyNode)
    (numProperties : Nat) : RemovalPlan :=
  if numProperties > 1 then
    match commaMatchAfterLen (text.drop node.endPos) with
    | some len =>
        { removalStart := node.fullStart
          removalEnd := node.endPos + len
          needsCommaInserted := true }
    | none =>
        match commaMatchBeforeLen (text.take node.fullStart) with
        | some len =>
            { removalStart := node.fullStart - len
              removalEnd := node.endPos
              needsCommaInserted := false }
        | none =>
            { removalStart := node.fullStart
              removalEnd := node.endPos
              needsCommaInserted := false }
  else
    { removalStart := node.fullStart
      removalEnd := node.endPos
      needsCommaInserted := false }

/-- Remove the index range [a, b) from a character list. -/
def spliceOut (s : List Char) (a b : Nat) : List Char :=
  s.take a ++ s.drop b

/-- Embedding of `recorder.remove(remStart, remEnd - remStart)` followed by
`recorder.insertLeft(insertPos, ins)` and `tree.commitUpdate`: every original
character inside the removed range disappears, and the inserted text is
anchored at original offset `insertPos` (an insertion anchored inside a
removed range still renders, as in the update-buffer implementation). -/
def commitUpdate (text : List Char) (remStart remEnd insertPos : Nat)
    (ins : List Char) : List Char :=
  spliceOut (text.take insertPos) remStart remEnd ++ ins ++
    spliceOut (text.drop insertPos) (remStart - insertPos) (remEnd - insertPos)

/-- One decorator-object entry as laid out in the file text: `lead` is the
leading trivia (the text between the previous token and the entry's first
token, which TypeScript attributes to this node), `core` is the entry's own
text from its first token to its end. -/
structure Entry where
  lead : List Char
  core : List Char
deriving Repr, DecidableEq

def renderEntry (e : Entry) : List Char :=
  e.lead ++ e.core

/-- Text of a comma-separated entry sequence, one comma between consecutive
entries (the layout `ts.createSourceFile` reads back into these offsets). -/
def renderEntries : List Entry → List Char
  | [] => []
  | [e] => renderEntry e
  | e :: rest => renderEntry e ++ [','] ++ renderEntries (rest)

/-- Text of an initial segment of entries, each followed by its separator
comma (what precedes a later entry in the block). -/
def renderInit : List Entry → List Char
  | [] => []
  | e :: rest => renderEntry e ++ [','] ++ renderInit rest

/-- The TypeScript offsets of the entry `e` when the file text is
`pre ++ renderEntries (as ++ e :: bs) ++ post`. -/
def entryNode (pre : List Char) (as : List Entry) (e : Entry) : PropertyNode :=
  { fullStart := pre.length + (renderInit as).length
    start := pre.length + (renderInit as).length + e.lead.length
    endPos := pre.length + (renderInit as).length + e.lead.length + e.core.length }

/-- Full file text around the decorator block's entries. -/
def blockText (pre : List Char) (es : List Entry) (post : List Char) : List Char :=
  pre ++ renderEntries es ++ post

/-- The removal plan the migration rule computes when the file's entry
sequence is `as ++ e :: bs` and the migrated entry is `e`. -/
def migrationPlan (pre : List Char) (as : List Entry) (e : Entry)
    (bs : List Entry) (post : List Char) : RemovalPlan :=
  computeRemovalRange (blockText pre (as ++ e :: bs) post) (entryNode pre as e)
    (as ++ e :: bs).length

/-- The complete text rewrite the migration rule performs on one file whose
entry sequence is `as ++ e :: bs` and whose migrated entry is `e`: compute
the removal plan, remove that range, and anchor the replacement (plus a
trailing comma when the plan requests one) at the node's `getStart()`. -/
def migrateBlockText (pre : List Char) (as : List Entry) (e : Entry)
    (bs : List Entry) (post : List Char) (ins : List Char) : List Char :=
  commitUpdate (blockText pre (as ++ e :: bs) post)
    (migrationPlan pre as e bs post).removalStart
    (migrationPlan pre as e bs post).removalEnd
    (entryNode pre as e).start
    (ins ++ (if (migrationPlan pre as e bs post).needsCommaInserted then [','] else []))

/-- The key of one decorator property, as the code distinguishes it:
`ts.isIdentifier(prop.name)` holds only for `ident`; a string-literal key or
a computed key fails that test. -/
inductive PropKey where
  | ident (name : List Char)
  | stringKey (name : List Char)
  | computed
deriving Repr, DecidableEq

/-- An element of an array-literal initializer, as the code classifies it:
`str`/`tpl` pass `ts.isStringLiteral`/`ts.isNoSubstitutionTemplateLiteral`,
everything else does not. -/
inductive ArrayElem where
  | str (text : List Char)
  | tpl (text : List Char)
  | identRef (name : List Char)
  | otherElem
deriving Repr, DecidableEq

/-- The shape of a property initializer, following the type guards the code
applies: string literal, no-substitution template literal, array literal,
identifier reference, call, spread, template with interpolation. -/
inductive ValueShape where
  | stringLit (text : List Char)
  | noSubTemplateLit (text : List Char)
  | arrayLit (elems : List ArrayElem)
  | identifierRef (name : List Char)
  | callExpr
  | spreadElem
  | templateExpr
deriving Repr, DecidableEq

/-- One property assignment of the decorator object: its key and the shape
of its initializer. -/
structure PropKV where
  key : PropKey
  value : ValueShape
deriving Repr, DecidableEq

def keyIsIdentNamed (k : PropKey) (nm : List Char) : Bool :=
  match k with
  | .ident n => n == nm
  | _ => false

/-- Embedding of the `componentDecorator.properties.some(...)` guard: is a
property assignment with an identifier key of this name present. -/
def hasPropIdent (props : List PropKV) (nm : List Char) : Bool :=
  props.any fun p => keyIsIdentNamed p.key nm

/-- Embedding of `decorator.properties.find(...)` with the identifier-key
type guard. -/
def findPropIdent (props : List PropKV) (nm : List Char) : Option PropKV :=
  props.find? fun p => keyIsIdentNamed p.key nm

/-- Embedding of `getDecoratorPropertyValue` (src/src/migrar-templates/
index.ts, lines 44-62): the found property's text if its initializer is a
string literal or a no-substitution template literal, `undefined` otherwise. -/
def getDecoratorPropertyValue (props : List PropKV) (nm : List Char) :
    Option (List Char) :=
  match findPropIdent props nm with
  | some p =>
      match p.value with
      | .stringLit t => some t
      | .noSubTemplateLit t => some t
      | _ => none
  | none => none

/-- One decorator property as laid out in the file: leading trivia, the
key/value shape the inspector reads off it, and its core text. -/
structure PEntry where
  lead : List Char
  kv : PropKV
  core : List Char
deriving Repr, DecidableEq

def PEntry.toEntry (p : PEntry) : Entry :=
  { lead := p.lead, core := p.core }

/-- Locate the first property with the given identifier key, returning the
entries before it, the entry itself and the entries after it (the layout
companion of `getDecoratorPropertyNode`). -/
def splitAtPropIdent (nm : List Char) : List PEntry →
    Option (List PEntry × PEntry × List PEntry)
  | [] => none
  | p :: rest =>
      if keyIsIdentNamed p.kv.key nm then some ([], p, rest)
      else
        match splitAtPropIdent nm rest with
        | some (as, e, bs) => some (p :: as, e, bs)
        | none => none

/-- Does `s` start with `pat`. -/
def listStartsWith : List Char → List Char → Bool
  | [], _ => true
  | _ :: _, [] => false
  | p :: ps, c :: cs => p == c && listStartsWith ps cs

/-- Does `s` end with `suffix` (embedding of `String.prototype.endsWith`). -/
def strEndsWith (s suffix : List Char) : Bool :=
  listStartsWith suffix.reverse s.reverse

def templateName : List Char := "template".toList

def templateUrlName : List Char := "templateUrl".toList

def stylesName : List Char := "styles".toList

def styleUrlsName : List Char := "styleUrls".toList

def componentTsSuffix : List Char := ".component.ts".toList

/-- Portion of a path after its last slash (the `path.basename` collaborator
of the schematic, modelled for slash-separated virtual-tree paths). -/
def basenameOf (p : List Char) : List Char :=
  (p.reverse.takeWhile (fun c => c ≠ '/')).reverse

/-- Portion of a path up to and including its last slash (the
`path.dirname` + `path.join` collaborators composed: appending a file name
to this yields the sibling path `join(dirname(p), name)`). -/
def dirSlashOf (p : List Char) : List Char :=
  (p.reverse.dropWhile (fun c => c ≠ '/')).reverse

/-- Embedding of `basename(filePath, ".ts")`: strip a trailing `.ts`. -/
def stripSuffixTs (s : List Char) : List Char :=
  if strEndsWith s (".ts".toList) then s.take (s.length - 3) else s

def componentBaseNameOf (path : List Char) : List Char :=
  stripSuffixTs (basenameOf path)

def htmlFileNameOf (path : List Char) : List Char :=
  componentBaseNameOf path ++ ".html".toList

def htmlFilePathOf (path : List Char) : List Char :=
  dirSlashOf path ++ htmlFileNameOf path

def relativeHtmlPathOf (path : List Char) : List Char :=
  "./".toList ++ htmlFileNameOf path

/-- The replacement text `templateUrl: '<relative path>'` the rule builds. -/
def newTemplateUrlPropertyText (path : List Char) : List Char :=
  "templateUrl: ".toList ++ [quoteChar] ++ relativeHtmlPathOf path ++ [quoteChar]

/-- The Angular virtual tree: an association list from paths to contents. -/
abbrev VTree := List (List Char × List Char)

def treeRead : VTree → List Char → Option (List Char)
  | [], _ => none
  | e :: rest, p => if e.1 = p then some e.2 else treeRead rest p

/-- Embedding of `tree.exists(path)`. -/
def treeHas (t : VTree) (p : List Char) : Bool :=
  (treeRead t p).isSome

/-- Embedding of `tree.create(path, content)` (the code only calls it on
paths it has checked do not exist). -/
def treeCreate (t : VTree) (p c : List Char) : VTree :=
  t ++ [(p, c)]

/-- Effect of `beginUpdate`/`commitUpdate` on the tree: the file at `p` now
holds the edited content. -/
def treeOverwrite : VTree → List Char → List Char → VTree
  | [], _, _ => []
  | e :: rest, p, c => (if e.1 = p then (p, c) else e) :: treeOverwrite rest p c

inductive DiagLevel where
  | info
  | debug
  | warn
  | error
  | fatal
deriving Repr, DecidableEq

/-- The diagnostics the rule emits, tagged by which log call produced them. -/
inductive DiagMsg where
  | couldNotRead (p : List Char)
  | skipAlreadyHasTemplateUrl (p : List Char)
  | skipNoInlineTemplate (p : List Char)
  | htmlExistsSkipCreation (p : List Char)
  | createdHtml (p : List Char)
  | criticalNoTemplateNode (p : List Char)
  | updated (p : List Char)
  | unitFault (p : List Char)
  | enumerationFault
deriving Repr, DecidableEq

structure Diag where
  level : DiagLevel
  msg : DiagMsg
deriving Repr, DecidableEq

/-- One file of the structured input snapshot: either a file that is not a
component candidate (wrong name or no at-Component decorator with an object
literal argument), or a candidate whose decorator block layout is known. -/
structure CompFile where
  path : List Char
  pre : List Char
  entries : List PEntry
  closeLead : List Char
  post : List Char
deriving Repr, DecidableEq

def CompFile.kvs (f : CompFile) : List PropKV :=
  f.entries.map (fun p => p.kv)

/-- The raw text of a candidate file: prefix up to the decorator object's
opening brace, the comma-separated entries, trailing trivia, closing brace,
rest of the file. -/
def renderComp (f : CompFile) : List Char :=
  f.pre ++ [lbraceChar] ++ renderEntries (f.entries.map PEntry.toEntry) ++
    f.closeLead ++ [rbraceChar] ++ f.post

inductive SUnit where
  | plain (path content : List Char)
  | comp (f : CompFile)
deriving Repr, DecidableEq

def SUnit.upath : SUnit → List Char
  | .plain p _ => p
  | .comp f => f.path

def renderUnit : SUnit → List Char
  | .plain _ c => c
  | .comp f => renderComp f

/-- The virtual tree holding exactly the snapshot's files. -/
def renderTreeOf (us : List SUnit) : VTree :=
  us.map (fun u => (u.upath, renderUnit u))

/-- The rewritten text of a candidate file whose entry split around the
migrated `template` entry is `as ++ e :: bs`. -/
def migrateCompText (f : CompFile) (as : List PEntry) (e : PEntry)
    (bs : List PEntry) : List Char :=
  migrateBlockText (f.pre ++ [lbraceChar]) (as.map PEntry.toEntry) e.toEntry
    (bs.map PEntry.toEntry) (f.closeLead ++ rbraceChar :: f.post)
    (newTemplateUrlPropertyText f.path)

/-- Embedding of the per-file body of `migrarTemplates`
(src/src/migrar-templates/index.ts, lines 86-218): skip files whose name is
not a component declaration, skip when an identifier-keyed `templateUrl`
property is present, skip (with a diagnostic) when no usable literal
`template` value is found; otherwise create the external file unless its
path already exists, then — unless the property node cannot be re-found —
remove the `template` entry per the removal plan and insert the
`templateUrl` reference at the node's start. -/
def processUnit (tree : VTree) (u : SUnit) : VTree × List Diag :=
  match u with
  | .plain _ _ => (tree, [])
  | .comp f =>
      if ¬ strEndsWith f.path componentTsSuffix then (tree, [])
      else if hasPropIdent f.kvs templateUrlName then
        (tree, [{ level := .debug, msg := .skipAlreadyHasTemplateUrl f.path }])
      else
        match getDecoratorPropertyValue f.kvs templateName with
        | none => (tree, [{ level := .debug, msg := .skipNoInlineTemplate f.path }])
        | some content =>
            let htmlPath := htmlFilePathOf f.path
            let step1 : VTree × List Diag :=
              if treeHas tree htmlPath then
                (tree, [{ level := .warn, msg := .htmlExistsSkipCreation htmlPath }])
              else
                (treeCreate tree htmlPath content,
                 [{ level := .debug, msg := .createdHtml htmlPath }])
            match splitAtPropIdent templateName f.entries with
            | none =>
                (step1.1, step1.2 ++ [{ level := .error, msg := .criticalNoTemplateNode f.path }])
            | some (as, e, bs) =>
                (treeOverwrite step1.1 f.path (migrateCompText f as e bs),
                 step1.2 ++ [{ level := .info, msg := .updated f.path }])

/-- Folding the per-file rule over the candidate sequence (the `visit`
traversal), tree effects only. -/
def runUnits (tree : VTree) : List SUnit → VTree
  | [] => tree
  | u :: rest => runUnits (processUnit tree u).1 rest

def countChar (c : Char) (s : List Char) : Nat :=
  (s.filter (fun x => x = c)).length

/-- Scenario input: the file `/x.component.ts` with decorator block
`lbrace selector: 'x', template: '<p>hi</p>' rbrace`. -/
def scenarioSelectorEntry : PEntry :=
  { lead := " ".toList
    kv := { key := .ident ("selector".toList), value := .stringLit ("x".toList) }
    core := "selector: ".toList ++ [quoteChar] ++ "x".toList ++ [quoteChar] }

def scenarioTemplateEntry : PEntry :=
  { lead := " ".toList
    kv := { key := .ident templateName, value := .stringLit ("<p>hi</p>".toList) }
    core := "template: ".toList ++ [quoteChar] ++ "<p>hi</p>".toList ++ [quoteChar] }

def scenarioFile : CompFile :=
  { path := "/x.component.ts".toList
    pre := "@Component(".toList
    entries := [scenarioSelectorEntry, scenarioTemplateEntry]
    closeLead := " ".toList
    post := ")".toList }

def scenarioTree : VTree :=
  renderTreeOf [SUnit.comp scenarioFile]

def scenarioOutcome : VTree × List Diag :=
  processUnit scenarioTree (SUnit.comp scenarioFile)

/-- The text a non-literal array element contributes in the variant's
`getDecoratorPropertyValue` (src/unnamed/part_001, lines 281-288): literal
string and template-literal elements contribute their text, every other
element contributes the empty string. -/
def literalElementText : ArrayElem → List Char
  | .str t => t
  | .tpl t => t
  | .identRef _ => []
  | .otherElem => []

/-- Return type of the variant's `getDecoratorPropertyValue`: a string or a
string array. -/
inductive StylesValue where
  | strVal (t : List Char)
  | arrVal (ts : List (List Char))
deriving Repr, DecidableEq

/-- Embedding of the variant `getDecoratorPropertyValue` that also handles
array literals (src/unnamed/part_001, lines 268-291). -/
def getDecoratorPropertyValueV2 (props : List PropKV) (nm : List Char) :
    Option StylesValue :=
  match findPropIdent props nm with
  | some p =>
      match p.value with
      | .stringLit t => some (.strVal t)
      | .noSubTemplateLit t => some (.strVal t)
      | .arrayLit es => some (.arrVal (es.map literalElementText))
      | _ => none
  | none => none

/-- How a `StylesValue` is coerced when written as file content (arrays are
joined in the JavaScript default way). -/
def stylesValueText : StylesValue → List Char
  | .strVal t => t
  | .arrVal [] => []
  | .arrVal (t :: rest) => t ++ (rest.foldl (fun acc x => acc ++ [','] ++ x) [])

/-- Embedding of the scss file naming of `createScssFile` (src/unnamed/
part_001, lines 319-321): index 0 gets `base.scss`, index i gets
`base-(i+1).scss`. -/
def scssFileNameFor (base : List Char) (index : Nat) : List Char :=
  if index = 0 then base ++ ".scss".toList
  else base ++ "-".toList ++ (toString (index + 1)).toList ++ ".scss".toList

/-- Embedding of `createScssFile` (src/unnamed/part_001, lines 312-330):
create the file only when the path does not exist, and in every case return
the dot-slash relative path to it. -/
def createScssFile (tree : VTree) (dirSlash base content : List Char)
    (index : Nat) : List Char × VTree :=
  ("./".toList ++ scssFileNameFor base index,
   if treeHas tree (dirSlash ++ scssFileNameFor base index) then tree
   else treeCreate tree (dirSlash ++ scssFileNameFor base index) content)

/-- The sequential `stylesContent.map((style, index) => createScssFile ...)`
of the variant: each call sees the tree as left by the previous one. -/
def createScssFiles (tree : VTree) (dirSlash base : List Char) :
    List (List Char) → Nat → List (List Char) × VTree
  | [], _ => ([], tree)
  | c :: rest, i =>
      ((createScssFile tree dirSlash base c i).1 ::
          (createScssFiles (createScssFile tree dirSlash base c i).2 dirSlash base rest (i + 1)).1,
       (createScssFiles (createScssFile tree dirSlash base c i).2 dirSlash base rest (i + 1)).2)

def quoteWrap (u : List Char) : List Char :=
  [quoteChar] ++ u ++ [quoteChar]

def joinCommaSpace : List (List Char) → List Char
  | [] => []
  | [x] => x
  | x :: rest => x ++ ", ".toList ++ joinCommaSpace rest

/-- The variant's replacement text for the template entry:
`,\n  templateUrl: '<relative path>'`. -/
def v2TemplateInsert (path : List Char) : List Char :=
  ",\n  templateUrl: ".toList ++ [quoteChar] ++ relativeHtmlPathOf path ++ [quoteChar]

/-- The variant's replacement text for the styles entry:
`,\n  styleUrls: [<quoted urls joined by comma-space>]`. -/
def v2StyleUrlsInsert (urls : List (List Char)) : List Char :=
  ",\n  styleUrls: [".toList ++ joinCommaSpace (urls.map quoteWrap) ++ "]".toList

/-- Offsets of the entry `e` inside `renderComp f` when `f.entries` splits as
`as ++ e :: bs`. -/
def compEntryNode (f : CompFile) (as : List PEntry) (e : PEntry) : PropertyNode :=
  entryNode (f.pre ++ [lbraceChar]) (as.map PEntry.toEntry) e.toEntry

/-- The variant's removal range (src/unnamed/part_001, lines 389-399 and
430-440): clamp the node span to the file, then always retract the start
over a preceding comma-plus-whitespace match; there is no comma-after case
and the replacement always carries its own leading comma. -/
def v2RemovalRange (origText : List Char) (node : PropertyNode) : Nat × Nat :=
  (match commaMatchBeforeLen (origText.take node.fullStart) with
   | some len => node.fullStart - len
   | none => node.fullStart,
   min origText.length node.endPos)

/-- One phase of the variant applied to the current text: remove the stale
original-coordinate range and insert the replacement at the removal start,
guarded by the variant's bounds check against the original length. -/
def v2ApplyPhase (origLen : Nat) (cur : List Char) (rs re : Nat)
    (ins : List Char) : List Char :=
  if rs < origLen ∧ re ≤ origLen then commitUpdate cur rs re rs ins else cur

/-- Embedding of the per-file body of the variant `migrarTemplates`
(src/unnamed/part_001, lines 339-477): the template phase (guarded by the
absence of an identifier-keyed `templateUrl`) and then the styles phase
(guarded by the absence of an identifier-keyed `styleUrls`), evaluated
independently on the same parsed file; both phases compute their offsets
from the original parse. -/
def processUnitV2 (tree : VTree) (u : SUnit) : VTree :=
  match u with
  | .plain _ _ => tree
  | .comp f =>
      if ¬ strEndsWith f.path componentTsSuffix then tree
      else
        let orig := renderComp f
        let afterTemplate : VTree × List Char :=
          if hasPropIdent f.kvs templateUrlName then (tree, orig)
          else
            match getDecoratorPropertyValueV2 f.kvs templateName with
            | none => (tree, orig)
            | some tv =>
                let htmlPath := htmlFilePathOf f.path
                let tree1 :=
                  if treeHas tree htmlPath then tree
                  else treeCreate tree htmlPath (stylesValueText tv)
                match splitAtPropIdent templateName f.entries with
                | none => (tree1, orig)
                | some (as, e, _bs) =>
                    let rr := v2RemovalRange orig (compEntryNode f as e)
                    let newText :=
                      v2ApplyPhase orig.length orig rr.1 rr.2 (v2TemplateInsert f.path)
                    (treeOverwrite tree1 f.path newText, newText)
        if hasPropIdent f.kvs styleUrlsName then afterTemplate.1
        else
          match getDecoratorPropertyValueV2 f.kvs stylesName with
          | none => afterTemplate.1
          | some sv =>
              match splitAtPropIdent stylesName f.entries with
              | none => afterTemplate.1
              | some (as, e, _bs) =>
                  let rr := v2RemovalRange orig (compEntryNode f as e)
                  match sv with
                  | .strVal t =>
                      let made := createScssFile afterTemplate.1 (dirSlashOf f.path)
                        (componentBaseNameOf f.path) t 0
                      let newText := v2ApplyPhase orig.length afterTemplate.2 rr.1 rr.2
                        (v2StyleUrlsInsert [made.1])
                      treeOverwrite made.2 f.path newText
                  | .arrVal ts =>
                      let made := createScssFiles afterTemplate.1 (dirSlashOf f.path)
                        (componentBaseNameOf f.path) ts 0
                      let newText := v2ApplyPhase orig.length afterTemplate.2 rr.1 rr.2
                        (v2StyleUrlsInsert made.1)
                      treeOverwrite made.2 f.path newText

/-- The decision guarding the variant's template phase (src/unnamed/
part_001, lines 367-373): fires when no identifier-keyed `templateUrl` is
present and a usable `template` value is found. -/
def templateMigrationFiresV2 (props : List PropKV) : Bool :=
  !hasPropIdent props templateUrlName &&
    (getDecoratorPropertyValueV2 props templateName).isSome

/-- The decision guarding the variant's styles phase (src/unnamed/part_001,
lines 415-421). -/
def stylesMigrationFiresV2 (props : List PropKV) : Bool :=
  !hasPropIdent props styleUrlsName &&
    (getDecoratorPropertyValueV2 props stylesName).isSome

/-- Modelled from the spec: the specification's notion of a literal entry
being present for a concern (section 3's invariant "migration for markup
fires only when template (literal) is present"): a property assignment with
that identifier key whose initializer is a literal expression. -/
def specLiteralEntryPresent (props : List PropKV) (nm : List Char) : Bool :=
  props.any fun p =>
    keyIsIdentNamed p.key nm &&
      (match p.value with
       | .stringLit _ => true
       | .noSubTemplateLit _ => true
       | .arrayLit _ => true
       | _ => false)

/-- A candidate unit as the variant's traversal sees it: either one whose
processing completes, or one on which a fault is raised. -/
inductive VUnit where
  | ok (u : SUnit)
  | faulty (path : List Char)
deriving Repr, DecidableEq

/-- Embedding of the per-file try/catch of the variant (src/unnamed/
part_001, lines 340-476): a fault on one unit is caught, logged as an error
diagnostic, and the traversal moves on; a completing unit contributes its
tree effects. -/
def processUnitCaught (acc : VTree × List Diag) (u : VUnit) : VTree × List Diag :=
  match u with
  | .faulty p => (acc.1, acc.2 ++ [{ level := .error, msg := .unitFault p }])
  | .ok su => (processUnitV2 acc.1 su, acc.2)

def runCaught (tree : VTree) (us : List VUnit) : VTree × List Diag :=
  us.foldl processUnitCaught (tree, [])

/-- Embedding of the outer try/catch of the variant (src/unnamed/part_001,
lines 338 and 478-489): a fault while enumerating candidates is logged as a
fatal diagnostic and rethrown, aborting the whole run; otherwise every
enumerated unit is processed. -/
def runMigrationV2 (enum : Except (List Char) (List VUnit)) (tree : VTree) :
    Except (List Char × Diag) (VTree × List Diag) :=
  match enum with
  | .error f => .error (f, { level := .fatal, msg := .enumerationFault })
  | .ok us => .ok (runCaught tree us)

/-- Number of positions at which `pat` occurs in `s`. -/
def countOcc (pat s : List Char) : Nat :=
  ((List.range (s.length + 1)).filter (fun i => listStartsWith pat (s.drop i))).length

/-- The initializer shapes the inspector treats as present but unusable. -/
def isUnusableShape : ValueShape → Bool
  | .identifierRef _ => true
  | .callExpr => true
  | .spreadElem => true
  | .templateExpr => true
  | _ => false

def unitPaths (us : List SUnit) : List (List Char) :=
  us.map SUnit.upath

/-- A tree in which the migration target `/x.component.html` already exists
with unrelated content before the run. -/
def c6Tree : VTree :=
  [(scenarioFile.path, renderComp scenarioFile),
   ("/x.component.html".toList, "OLD".toList)]

/-- A styles entry whose array literal contains an identifier element — not
an accepted literal per the specification. -/
def c7StylesEntry : PEntry :=
  { lead := " ".toList
    kv := { key := .ident stylesName, value := .arrayLit [.identRef ("foo".toList)] }
    core := "styles: [foo]".toList }

def c7File : CompFile :=
  { path := "/app/s.component.ts".toList
    pre := "@Component(".toList
    entries := [{ lead := " ".toList
                  kv := { key := .ident ("selector".toList), value := .stringLit ("a".toList) }
                  core := "selector: ".toList ++ [quoteChar] ++ "a".toList ++ [quoteChar] },
                c7StylesEntry]
    closeLead := " ".toList
    post := ")".toList }

def c7Tree : VTree :=
  renderTreeOf [SUnit.comp c7File]

/-- The decorator entry `template: tpl` — a `template` value that is an
identifier reference, a top-level unusable shape. -/
def c7bEntry : PEntry :=
  { lead := " ".toList
    kv := { key := .ident templateName, value := .identifierRef ("tpl".toList) }
    core := "template: tpl".toList }

/-- A component file whose `template` value is an identifier reference. -/
def c7bFile : CompFile :=
  { path := "/b.component.ts".toList
    pre := "@Component(".toList
    entries := [c7bEntry]
    closeLead := " ".toList
    post := ")".toList }

/-- The decorator entry `styles: sty` — a `styles` value that is an
identifier reference, a top-level unusable shape for the variant's styles
phase. -/
def c7cEntry : PEntry :=
  { lead := " ".toList
    kv := { key := .ident stylesName, value := .identifierRef ("sty".toList) }
    core := "styles: sty".toList }

/-- A component file whose `styles` value is an identifier reference and
which carries no `template` property. -/
def c7cFile : CompFile :=
  { path := "/c.component.ts".toList
    pre := "@Component(".toList
    entries := [c7cEntry]
    closeLead := " ".toList
    post := ")".toList }

/-- A decorator block whose `templateUrl` key is written as a string-literal
key rather than a bare identifier. -/
def c10KeyEntry : PEntry :=
  { lead := " ".toList
    kv := { key := .stringKey templateUrlName, value := .stringLit ("./old.html".toList) }
    core := [dquoteChar] ++ templateUrlName ++ [dquoteChar] ++ ": ".toList ++
      [quoteChar] ++ "./old.html".toList ++ [quoteChar] }

def c10File : CompFile :=
  { path := "/y.component.ts".toList
    pre := "@Component(".toList
    entries := [c10KeyEntry,
                { lead := " ".toList
                  kv := { key := .ident templateName, value := .stringLit ("<p>hi</p>".toList) }
                  core := "template: ".toList ++ [quoteChar] ++ "<p>hi</p>".toList ++ [quoteChar] },
                { lead := " ".toList
                  kv := { key := .ident ("selector".toList), value := .stringLit ("y".toList) }
                  core := "selector: ".toList ++ [quoteChar] ++ "y".toList ++ [quoteChar] }]
    closeLead := " ".toList
    post := ")".toList }

def c10Tree : VTree :=
  renderTreeOf [SUnit.comp c10File]

/-- The text the migration produces on `c10File`: the inserted identifier-
keyed `templateUrl` entry lands next to the untouched string-keyed one. -/
def c10NewText : List Char :=
  "@Component(\x7b \"templateUrl\": \x27./old.html\x27,templateUrl: \x27./y.component.html\x27, selector: \x27y\x27 \x7d)".toList

/-- Template-only and styles-only blocks used to show either migration can
fire alone. -/
def c5TemplateOnlyProps : List PropKV :=
  [{ key := .ident templateName, value := .stringLit ("<p>a</p>".toList) },
   { key := .ident ("selector".toList), value := .stringLit ("a".toList) }]

def c5StylesOnlyProps : List PropKV :=
  [{ key := .ident stylesName, value := .arrayLit [.str ("a".toList)] },
   { key := .ident ("selector".toList), value := .stringLit ("a".toList) }]

def isIdentChar (c : Char) : Bool :=
  c.isAlpha || c.isDigit || c = '_' || c = '$'

def skipWs (s : List Char) : List Char :=
  s.dropWhile isWsChar

/-- Scan a quoted run up to the closing quote character `q` (no escapes):
the scanned text and the rest after the closing quote. -/
def scanString (q : Char) : List Char → Option (List Char × List Char)
  | [] => none
  | c :: rest =>
      if c = q then some ([], rest)
      else
        match scanString q rest with
        | some (t, r) => some (c :: t, r)
        | none => none

/-- Modelled from the spec: one array element as the Parser collaborator
(section 2, "Parser — builds a syntax tree from one file's raw text")
classifies it — a quoted string, a backtick string, or an identifier. -/
def parseArrElem : List Char → Option (ArrayElem × List Char)
  | [] => none
  | c :: rest =>
      if c = quoteChar then
        match scanString quoteChar rest with
        | some (t, r) => some (.str t, r)
        | none => none
      else if c = backtickChar then
        match scanString backtickChar rest with
        | some (t, r) => some (.tpl t, r)
        | none => none
      else if isIdentChar c then
        some (.identRef ((c :: rest).takeWhile isIdentChar),
          (c :: rest).dropWhile isIdentChar)
      else none

/-- Modelled from the spec: a bracketed, comma-separated element list. -/
def parseArrayElems (fuel : Nat) (s : List Char) :
    Option (List ArrayElem × List Char) :=
  match fuel with
  | 0 => none
  | fuel + 1 =>
      match skipWs s with
      | [] => none
      | c :: rest =>
          if c = ']' then some ([], rest)
          else
            match parseArrElem (c :: rest) with
            | none => none
            | some (v, r) =>
                match skipWs r with
                | ',' :: r2 =>
                    match parseArrayElems fuel r2 with
                    | some (vs, rr) => some (v :: vs, rr)
                    | none => none
                | c2 :: r2 => if c2 = ']' then some ([v], r2) else none
                | [] => none

/-- Modelled from the spec: one property initializer — a quoted string, a
backtick string, an array literal, or an identifier reference. -/
def parseValue (fuel : Nat) : List Char → Option (ValueShape × List Char)
  | [] => none
  | c :: rest =>
      if c = '[' then
        match parseArrayElems fuel rest with
        | some (vs, r) => some (.arrayLit vs, r)
        | none => none
      else if c = quoteChar then
        match scanString quoteChar rest with
        | some (t, r) => some (.stringLit t, r)
        | none => none
      else if c = backtickChar then
        match scanString backtickChar rest with
        | some (t, r) => some (.noSubTemplateLit t, r)
        | none => none
      else if isIdentChar c then
        some (.identifierRef ((c :: rest).takeWhile isIdentChar),
          (c :: rest).dropWhile isIdentChar)
      else none

/-- Modelled from the spec: a property key — a bare identifier or a
string-literal key. -/
def parseKey : List Char → Option (PropKey × List Char)
  | [] => none
  | c :: rest =>
      if c = dquoteChar then
        match scanString dquoteChar rest with
        | some (t, r) => some (.stringKey t, r)
        | none => none
      else if isIdentChar c then
        some (.ident ((c :: rest).takeWhile isIdentChar),
          (c :: rest).dropWhile isIdentChar)
      else none

/-- Modelled from the spec: one `key : value` property assignment. -/
def parseEntryKV (fuel : Nat) (s : List Char) : Option (PropKV × List Char) :=
  match parseKey (skipWs s) with
  | none => none
  | some (k, r) =>
      match skipWs r with
      | ':' :: r2 =>
          match parseValue fuel (skipWs r2) with
          | some (v, rr) => some ({ key := k, value := v }, rr)
          | none => none
      | _ => none

/-- Modelled from the spec: the comma-separated property list of the
decorator object, up to its closing brace; text after the closing brace is
not the block's concern.  The parser is strict: text that is not a
well-formed block yields no decorator, and the unit is not a candidate. -/
def parsePropsLoop (fuel : Nat) (s : List Char) : Option (List PropKV) :=
  match fuel with
  | 0 => none
  | fuel + 1 =>
      match skipWs s with
      | [] => none
      | c :: rest =>
          if c = rbraceChar then some []
          else
            match parseEntryKV fuel (c :: rest) with
            | none => none
            | some (kv, r) =>
                match skipWs r with
                | c2 :: r2 =>
                    if c2 = ',' then
                      match parsePropsLoop fuel r2 with
                      | some kvs => some (kv :: kvs)
                      | none => none
                    else if c2 = rbraceChar then some [kv] else none
                | [] => none

/-- The suffix after the first opening brace, where the decorator object's
properties begin. -/
def dropThroughLbrace : List Char → Option (List Char)
  | [] => none
  | c :: rest => if c = lbraceChar then some rest else dropThroughLbrace rest

/-- Modelled from the spec: the Parser + DecoratorLocator collaborators
(`ts.createSourceFile` + `findComponentDecorator`) applied to raw text:
locate the configuration block's opening brace and read its property list. -/
def parseDecoratorProps (text : List Char) : Option (List PropKV) :=
  match dropThroughLbrace text with
  | none => none
  | some rest => parsePropsLoop (rest.length + 1) rest

/-- Would a second visit of this file stage an edit or create a file: the
guards of `migrarTemplates` before any effect — candidate name, a parsed
decorator, no identifier-keyed `templateUrl`, a usable literal `template`. -/
def secondRunFires (p c : List Char) : Bool :=
  strEndsWith p componentTsSuffix &&
    (match parseDecoratorProps c with
     | none => false
     | some props =>
         !hasPropIdent props templateUrlName &&
           (getDecoratorPropertyValue props templateName).isSome)

/-- Number of files on which a run over `v` would stage an edit. -/
def stagedEditCount (v : VTree) : Nat :=
  (v.filter (fun e => secondRunFires e.1 e.2)).length

/-- Number of files a run over `v` would create (a firing unit whose target
external file does not yet exist). -/
def createdFileCount (v : VTree) : Nat :=
  (v.filter (fun e => secondRunFires e.1 e.2 && !treeHas v (htmlFilePathOf e.1))).length

def wfWsB (l : List Char) : Bool :=
  l.all isWsChar

def wfNameB (nm : List Char) : Bool :=
  !nm.isEmpty && nm.all isIdentChar

def renderKey : PropKey → List Char
  | .ident nm => nm
  | .stringKey nm => [dquoteChar] ++ nm ++ [dquoteChar]
  | .computed => []

def renderArrElem : ArrayElem → List Char
  | .str t => [quoteChar] ++ t ++ [quoteChar]
  | .tpl t => [backtickChar] ++ t ++ [backtickChar]
  | .identRef nm => nm
  | .otherElem => []

def renderValueShape : ValueShape → List Char
  | .stringLit t => [quoteChar] ++ t ++ [quoteChar]
  | .noSubTemplateLit t => [backtickChar] ++ t ++ [backtickChar]
  | .arrayLit es => ['['] ++ joinCommaSpace (es.map renderArrElem) ++ [']']
  | _ => []

def wfKeyB : PropKey → Bool
  | .ident nm => wfNameB nm
  | .stringKey nm => decide (dquoteChar ∉ nm)
  | .computed => false

def wfArrElemB : ArrayElem → Bool
  | .str t => decide (quoteChar ∉ t)
  | .tpl t => decide (backtickChar ∉ t)
  | .identRef nm => wfNameB nm
  | .otherElem => false

def wfValueShapeB : ValueShape → Bool
  | .stringLit t => decide (quoteChar ∉ t)
  | .noSubTemplateLit t => decide (backtickChar ∉ t)
  | .arrayLit es => es.all wfArrElemB
  | _ => false

/-- A decorator entry in canonical layout: whitespace trivia, a well-formed
key, a well-formed literal value, with the core text `key: value`. -/
def wfPEntryB (p : PEntry) : Bool :=
  wfWsB p.lead && wfKeyB p.kv.key && wfValueShapeB p.kv.value &&
    (p.core == renderKey p.kv.key ++ ':' :: ' ' :: renderValueShape p.kv.value)

def wfCompB (f : CompFile) : Bool :=
  decide (lbraceChar ∉ f.pre) && f.entries.all wfPEntryB && wfWsB f.closeLead &&
    decide (quoteChar ∉ f.path)

/-- A well-formed snapshot unit: non-candidate files keep non-candidate
names, candidate files have a well-formed decorator block layout. -/
def wfUnitB : SUnit → Bool
  | .plain p _ => !(strEndsWith p componentTsSuffix)
  | .comp f => wfCompB f

/-- How many fuel units the value parser needs for this initializer. -/
def valueFuelNeed : ValueShape → Nat
  | .arrayLit es => es.length + 1
  | _ => 0

/-- How many fuel units the property-list parser needs for these entries. -/
def propsFuelNeed (es : List PEntry) : Nat :=
  es.length + 1 + (es.map (fun p => valueFuelNeed p.kv.value)).sum

/-- The entry the migration inserts, in structured form. -/
def insertedPEntry (path : List Char) : PEntry :=
  { lead := []
    kv := { key := .ident templateUrlName
            value := .stringLit (relativeHtmlPathOf path) }
    core := newTemplateUrlPropertyText path }

theorem take_len_append (xs ys : List Char) : (xs ++ ys).take xs.length = xs := by
  induction xs with
  | nil => simp
  | cons a xs ih => simp [ih]

theorem drop_len_append (xs ys : List Char) : (xs ++ ys).drop xs.length = ys := by
  induction xs with
  | nil => simp
  | cons a xs ih => simp [ih]

theorem take_len_add_append (xs ys : List Char) (n : Nat) :
    (xs ++ ys).take (xs.length + n) = xs ++ ys.take n := by
  induction xs with
  | nil => simp
  | cons a xs ih =>
      simp only [List.cons_append, List.length_cons]
      rw [Nat.succ_add, List.take_succ_cons, ih]

theorem drop_len_add_append (xs ys : List Char) (n : Nat) :
    (xs ++ ys).drop (xs.length + n) = ys.drop n := by
  induction xs with
  | nil => simp
  | cons a xs ih =>
      simp only [List.cons_append, List.length_cons]
      rw [Nat.succ_add, List.drop_succ_cons, ih]

/-- When the insertion anchor lies inside the removed range (as in the
migration rule, which anchors at the node's `getStart()` while removing from
at or before its `getFullStart()`), the commit collapses to: prefix before
the removal, then the insertion, then the suffix after the removal. -/
theorem commitUpdate_collapse (text ins : List Char) (rs re ip : Nat)
    (h1 : rs ≤ ip) (h2 : ip ≤ re) :
    commitUpdate text rs re ip ins = text.take rs ++ ins ++ text.drop re := by
  unfold commitUpdate spliceOut
  have htake : (text.take ip).take rs = text.take rs := by
    rw [List.take_take, Nat.min_eq_left h1]
  have hdropnil : (text.take ip).drop re = [] := by
    apply List.drop_eq_nil_of_le
    calc (text.take ip).length ≤ ip := by
          simp
      _ ≤ re := h2
  have hz : rs - ip = 0 := Nat.sub_eq_zero_of_le h1
  have hdd : (text.drop ip).drop (re - ip) = text.drop re := by
    rw [List.drop_drop]
    congr 1
    omega
  rw [htake, hdropnil, hz, hdd]
  simp

theorem renderEntries_cons_cons (e b : Entry) (bs : List Entry) :
    renderEntries (e :: b :: bs) = renderEntry e ++ [','] ++ renderEntries (b :: bs) := rfl

theorem renderEntries_cons_ne (a : Entry) (l : List Entry) (h : l ≠ []) :
    renderEntries (a :: l) = renderEntry a ++ [','] ++ renderEntries l := by
  cases l with
  | nil => exact absurd rfl h
  | cons x xs => rfl

theorem renderInit_eq (as : List Entry) (h : as ≠ []) :
    renderInit as = renderEntries as ++ [','] := by
  induction as with
  | nil => exact absurd rfl h
  | cons a t ih =>
      cases t with
      | nil => simp [renderInit, renderEntries]
      | cons b t' =>
          rw [renderInit, ih (by simp), renderEntries_cons_cons]
          simp

theorem renderEntries_split (as bs : List Entry) (e : Entry) :
    renderEntries (as ++ e :: bs) =
      renderInit as ++ renderEntry e ++
        (match bs with
         | [] => []
         | _ :: _ => ',' :: renderEntries bs) := by
  induction as with
  | nil =>
      cases bs with
      | nil => simp [renderEntries, renderInit]
      | cons b bs' => simp [renderEntries_cons_cons, renderInit]
  | cons a t ih =>
      have hne : (t ++ e :: bs) ≠ [] := by simp
      rw [List.cons_append, renderEntries_cons_ne a _ hne, ih, renderInit]
      simp

theorem isWsChar_comma : isWsChar ',' = false := by decide

theorem wsCount_comma_cons (l : List Char) : wsCount (',' :: l) = 0 := by
  simp [wsCount, List.takeWhile_cons, isWsChar_comma]

theorem commaMatchAfterLen_comma (l : List Char) :
    commaMatchAfterLen (',' :: l) = some 1 := by
  unfold commaMatchAfterLen
  rw [wsCount_comma_cons]
  simp

theorem commaMatchBeforeLen_comma_end (l : List Char) :
    commaMatchBeforeLen (l ++ [',']) = some 1 := by
  unfold commaMatchBeforeLen
  have hrev : (l ++ [',']).reverse = ',' :: l.reverse := by simp
  rw [hrev, wsCount_comma_cons]
  simp

theorem renderInit_length (as : List Entry) (h : as ≠ []) :
    (renderInit as).length = (renderEntries as).length + 1 := by
  rw [renderInit_eq as h]
  simp

/-- Splicing with the insertion anchored inside the removed span, stated over
a three-part decomposition of the text. -/
theorem commitUpdate_parts (A B T ins : List Char) (rs re ip : Nat)
    (hrs : rs = A.length) (hre : re = A.length + B.length)
    (h1 : rs ≤ ip) (h2 : ip ≤ re) :
    commitUpdate (A ++ B ++ T) rs re ip ins = A ++ ins ++ T := by
  rw [commitUpdate_collapse _ _ _ _ _ h1 h2, hrs, hre]
  have hassoc : A ++ B ++ T = A ++ (B ++ T) := by simp
  rw [hassoc, take_len_append, drop_len_add_append, drop_len_append]

/-- Migrating an entry that is not lexically last (some entry follows it):
the plan extends the removal over the following comma and requests a
trailing comma on the replacement. -/
theorem migrationPlan_middle (pre post : List Char) (as : List Entry) (e b : Entry)
    (bs' : List Entry) :
    migrationPlan pre as e (b :: bs') post =
      { removalStart := pre.length + (renderInit as).length
        removalEnd := pre.length + (renderInit as).length + e.lead.length + e.core.length + 1
        needsCommaInserted := true } := by
  have htext : blockText pre (as ++ e :: b :: bs') post =
      (pre ++ renderInit as ++ e.lead ++ e.core) ++
        (',' :: (renderEntries (b :: bs') ++ post)) := by
    unfold blockText
    rw [renderEntries_split]
    simp [renderEntry]
  have hlen : (entryNode pre as e).endPos =
      (pre ++ renderInit as ++ e.lead ++ e.core).length := by
    simp [entryNode]
    omega
  have hdrop : (blockText pre (as ++ e :: b :: bs') post).drop
      (entryNode pre as e).endPos = ',' :: (renderEntries (b :: bs') ++ post) := by
    rw [htext, hlen, drop_len_append]
  have hgt : (as ++ e :: b :: bs').length > 1 := by
    simp
    omega
  unfold migrationPlan computeRemovalRange
  rw [if_pos hgt, hdrop, commaMatchAfterLen_comma]
  simp [entryNode]

/-- Migrating an entry that is not lexically last rewrites the block to the
same entry sequence with that entry replaced (its leading trivia dropped) and
exactly the original separators: the resulting text is again a well-formed
rendering of `as ++ newEntry :: bs`. -/
theorem migrate_middle (pre post ins : List Char) (as : List Entry) (e b : Entry)
    (bs' : List Entry) :
    migrateBlockText pre as e (b :: bs') post ins =
      blockText pre (as ++ { lead := [], core := ins } :: b :: bs') post := by
  unfold migrateBlockText
  rw [migrationPlan_middle]
  have htext : blockText pre (as ++ e :: b :: bs') post =
      (pre ++ renderInit as) ++ (e.lead ++ e.core ++ [',']) ++
        (renderEntries (b :: bs') ++ post) := by
    unfold blockText
    rw [renderEntries_split]
    simp [renderEntry]
  have hrs : pre.length + (renderInit as).length = (pre ++ renderInit as).length := by
    simp
  have hre : pre.length + (renderInit as).length + e.lead.length + e.core.length + 1 =
      (pre ++ renderInit as).length + (e.lead ++ e.core ++ [',']).length := by
    simp
    omega
  have h1 : pre.length + (renderInit as).length ≤ (entryNode pre as e).start := by
    simp [entryNode]
  have h2 : (entryNode pre as e).start ≤
      pre.length + (renderInit as).length + e.lead.length + e.core.length + 1 := by
    simp [entryNode]
    omega
  rw [htext, commitUpdate_parts _ _ _ _ _ _ _ hrs hre h1 h2]
  unfold blockText
  rw [renderEntries_split]
  simp [renderEntry]

/-- Migrating the lexically last entry of a multi-entry block: the plan
retracts the removal start over the preceding comma and requests no trailing
comma on the replacement. -/
theorem migrationPlan_last (pre post : List Char) (as : List Entry) (e : Entry)
    (has : as ≠ []) (hpost : commaMatchAfterLen post = none) :
    migrationPlan pre as e [] post =
      { removalStart := pre.length + (renderEntries as).length
        removalEnd := pre.length + (renderInit as).length + e.lead.length + e.core.length
        needsCommaInserted := false } := by
  have htext : blockText pre (as ++ [e]) post =
      (pre ++ renderInit as ++ e.lead ++ e.core) ++ post := by
    unfold blockText
    rw [renderEntries_split]
    simp [renderEntry]
  have hlen : (entryNode pre as e).endPos =
      (pre ++ renderInit as ++ e.lead ++ e.core).length := by
    simp [entryNode]
    omega
  have hdrop : (blockText pre (as ++ [e]) post).drop (entryNode pre as e).endPos
      = post := by
    rw [htext, hlen, drop_len_append]
  have htake : (blockText pre (as ++ [e]) post).take (entryNode pre as e).fullStart
      = (pre ++ renderEntries as) ++ [','] := by
    have hfs : (entryNode pre as e).fullStart = (pre ++ renderInit as).length := by
      simp [entryNode]
    have htext2 : blockText pre (as ++ [e]) post =
        (pre ++ renderInit as) ++ (e.lead ++ e.core ++ post) := by
      rw [htext]
      simp
    rw [htext2, hfs, take_len_append, renderInit_eq as has]
    simp
  have hgt : (as ++ [e]).length > 1 := by
    simp
    cases as with
    | nil => exact absurd rfl has
    | cons x xs => simp
  unfold migrationPlan computeRemovalRange
  rw [if_pos hgt, hdrop, hpost, htake, commaMatchBeforeLen_comma_end]
  have hil := renderInit_length as has
  simp [entryNode]
  omega

/-- Migrating the lexically last entry of a multi-entry block yields the
preceding entries' text followed directly by the replacement: the preceding
comma separator is removed and no comma is reinserted. -/
theorem migrate_last (pre post ins : List Char) (as : List Entry) (e : Entry)
    (has : as ≠ []) (hpost : commaMatchAfterLen post = none) :
    migrateBlockText pre as e [] post ins =
      pre ++ renderEntries as ++ ins ++ post := by
  unfold migrateBlockText
  rw [migrationPlan_last _ _ _ _ has hpost]
  have htext : blockText pre (as ++ [e]) post =
      (pre ++ renderEntries as) ++ ([','] ++ e.lead ++ e.core) ++ post := by
    unfold blockText
    rw [renderEntries_split, renderInit_eq as has]
    simp [renderEntry]
  have hil := renderInit_length as has
  have hrs : pre.length + (renderEntries as).length = (pre ++ renderEntries as).length := by
    simp
  have hre : pre.length + (renderInit as).length + e.lead.length + e.core.length =
      (pre ++ renderEntries as).length + ([','] ++ e.lead ++ e.core).length := by
    simp
    omega
  have h1 : pre.length + (renderEntries as).length ≤ (entryNode pre as e).start := by
    simp [entryNode]
    omega
  have h2 : (entryNode pre as e).start ≤
      pre.length + (renderInit as).length + e.lead.length + e.core.length := by
    simp [entryNode]
  rw [htext, commitUpdate_parts _ _ _ _ _ _ _ hrs hre h1 h2]
  simp

/-- Migrating the only entry of a single-entry block: baseline removal and no
separator handling. -/
theorem migrate_single (pre post ins : List Char) (e : Entry) :
    migrateBlockText pre [] e [] post ins = pre ++ ins ++ post := by
  unfold migrateBlockText migrationPlan computeRemovalRange
  have hgt : ¬ ([] ++ [e]).length > 1 := by simp
  rw [if_neg hgt]
  have htext : blockText pre ([] ++ [e]) post =
      pre ++ (e.lead ++ e.core) ++ post := by
    unfold blockText
    simp [renderEntries, renderEntry]
  have hrs : (entryNode pre [] e).fullStart = pre.length := by
    simp [entryNode, renderInit]
  have hre : (entryNode pre [] e).endPos = pre.length + (e.lead ++ e.core).length := by
    simp [entryNode, renderInit]
    omega
  have h1 : (entryNode pre [] e).fullStart ≤ (entryNode pre [] e).start := by
    simp [entryNode]
  have h2 : (entryNode pre [] e).start ≤ (entryNode pre [] e).endPos := by
    simp [entryNode]
  rw [htext, commitUpdate_parts _ _ _ _ _ _ _ hrs hre h1 h2]
  simp

theorem splitAtPropIdent_some (nm : List Char) (l as bs : List PEntry) (e : PEntry)
    (h : splitAtPropIdent nm l = some (as, e, bs)) :
    l = as ++ e :: bs ∧ findPropIdent (l.map (fun p => p.kv)) nm = some e.kv := by
  induction l generalizing as with
  | nil => simp [splitAtPropIdent] at h
  | cons p rest ih =>
      by_cases hp : keyIsIdentNamed p.kv.key nm
      · simp [splitAtPropIdent, hp] at h
        obtain ⟨h1, h2, h3⟩ := h
        subst h1
        subst h2
        subst h3
        simp [findPropIdent, List.find?_cons, hp]
      · simp [splitAtPropIdent, hp] at h
        match hrec : splitAtPropIdent nm rest with
        | none => rw [hrec] at h; simp at h
        | some (as', e', bs') =>
            rw [hrec] at h
            simp at h
            obtain ⟨h1, h2, h3⟩ := h
            obtain ⟨hl, hf⟩ := ih as' (by rw [hrec, h2, h3])
            subst h2
            subst h3
            constructor
            · rw [← h1]
              simp [hl]
            · simp [findPropIdent, List.find?_cons, hp]
              simpa [findPropIdent] using hf

theorem splitAtPropIdent_none (nm : List Char) (l : List PEntry)
    (h : splitAtPropIdent nm l = none) :
    findPropIdent (l.map (fun p => p.kv)) nm = none := by
  induction l with
  | nil => simp [findPropIdent]
  | cons p rest ih =>
      by_cases hp : keyIsIdentNamed p.kv.key nm
      · simp [splitAtPropIdent, hp] at h
      · simp [splitAtPropIdent, hp] at h
        match hrec : splitAtPropIdent nm rest with
        | some v => rw [hrec] at h; simp at h
        | none =>
            simp [findPropIdent, List.find?_cons, hp]
            simpa [findPropIdent] using ih hrec

/-- C1: the claim states that for every block with at least two entries,
after one literal entry is replaced by the splice the block still has N
entries and N-1 separators, regardless of the replaced entry's position.
The code violates this when the replaced entry is lexically last: on the
two-entry block `lbrace selector: 'x', template: '<p>hi</p>' rbrace` the
removal consumes the preceding comma separator, the replacement is inserted
with no comma, and the resulting block text
`lbrace selector: 'x'templateUrl: './x.component.html' rbrace` contains two
entries jammed together with zero separators instead of one. -/
theorem C1_entry_separator_invariant_fails_for_last_entry :
    scenarioFile.entries.length = 2 ∧
    treeRead scenarioOutcome.1 scenarioFile.path =
      some ("@Component(\x7b selector: \x27x\x27templateUrl: \x27./x.component.html\x27 \x7d)".toList) ∧
    countChar ','
      ("@Component(\x7b selector: \x27x\x27templateUrl: \x27./x.component.html\x27 \x7d)".toList) = 0 := by
  decide

/-- C2: the claim states that migrating
`lbrace selector: 'x', template: '<p>hi</p>' rbrace` produces the block
`lbrace selector: 'x', templateUrl: './x.component.html' rbrace` with a
separator between the two entries, plus a new file containing `<p>hi</p>`.
The code does create the external file with exactly that content, but the
rewritten block lacks the separator (and the space) between the two entries,
so the produced text differs from the claimed output. -/
theorem C2_scenario_a_output_diverges :
    treeRead scenarioOutcome.1 ("/x.component.html".toList) = some ("<p>hi</p>".toList) ∧
    treeRead scenarioOutcome.1 scenarioFile.path =
      some ("@Component(\x7b selector: \x27x\x27templateUrl: \x27./x.component.html\x27 \x7d)".toList) ∧
    treeRead scenarioOutcome.1 scenarioFile.path ≠
      some ("@Component(\x7b selector: \x27x\x27, templateUrl: \x27./x.component.html\x27 \x7d)".toList) := by
  decide

theorem countChar_zero_of_not_mem (c : Char) (s : List Char) (h : c ∉ s) :
    countChar c s = 0 := by
  unfold countChar
  rw [List.length_eq_zero, List.filter_eq_nil_iff]
  intro a ha
  simp only [decide_eq_true_eq]
  intro hac
  exact h (hac ▸ ha)

/-- C3: for a block with more than one entry whose migrated entry is
lexically last (no separator follows its end, because only whitespace and
the closing delimiter follow), the removal start is retracted to the
position of the preceding separator — consuming that separator together
with the whitespace the regex can reach before the node's full start, which
under TypeScript's trivia attribution is empty — the inserted replacement
carries no trailing separator, and the text between the inserted entry and
the end of the block contains no separator at all. -/
theorem C3_last_entry_leaves_no_trailing_separator
    (pre post ins : List Char) (as : List Entry) (e : Entry)
    (has : as ≠ []) (hpost : commaMatchAfterLen post = none)
    (hins : ',' ∉ ins) (hpostc : ',' ∉ post) :
    (migrationPlan pre as e [] post).removalStart =
      pre.length + (renderEntries as).length ∧
    (migrationPlan pre as e [] post).removalStart + 1 =
      (entryNode pre as e).fullStart ∧
    (migrationPlan pre as e [] post).needsCommaInserted = false ∧
    migrateBlockText pre as e [] post ins = pre ++ renderEntries as ++ ins ++ post ∧
    countChar ',' (ins ++ post) = 0 := by
  have hplan := migrationPlan_last pre post as e has hpost
  refine ⟨by rw [hplan], ?_, by rw [hplan], migrate_last pre post ins as e has hpost, ?_⟩
  · rw [hplan]
    simp [entryNode, renderInit_length as has]
    omega
  · apply countChar_zero_of_not_mem
    intro hmem
    rcases List.mem_append.mp hmem with h | h
    · exact hins h
    · exact hpostc h

/-- Concrete instance discharging the hypotheses of the C3 theorem: the
scenario block with the `template` entry last. -/
theorem C3_last_entry_leaves_no_trailing_separator_witness :
    (([{ lead := " ".toList, core := ("selector: ".toList ++ [quoteChar] ++ "x".toList ++ [quoteChar]) }] : List Entry) ≠ [] ∧
     commaMatchAfterLen (" \x7d)".toList) = none ∧
     ',' ∉ ("templateUrl: ".toList ++ [quoteChar] ++ "./x.component.html".toList ++ [quoteChar]) ∧
     ',' ∉ (" \x7d)".toList)) ∧
    countChar ','
      (("templateUrl: ".toList ++ [quoteChar] ++ "./x.component.html".toList ++ [quoteChar]) ++
        " \x7d)".toList) = 0 :=
  ⟨⟨by decide, by decide, by decide, by decide⟩,
    (C3_last_entry_leaves_no_trailing_separator
      ("@Component(\x7b".toList) (" \x7d)".toList)
      ("templateUrl: ".toList ++ [quoteChar] ++ "./x.component.html".toList ++ [quoteChar])
      [{ lead := " ".toList, core := ("selector: ".toList ++ [quoteChar] ++ "x".toList ++ [quoteChar]) }]
      { lead := " ".toList, core := ("template: ".toList ++ [quoteChar] ++ "<p>hi</p>".toList ++ [quoteChar]) }
      (by decide) (by decide) (by decide) (by decide)).2.2.2.2⟩

theorem treeRead_create_pres (t : VTree) (q d p c : List Char)
    (h : treeRead t p = some c) : treeRead (treeCreate t q d) p = some c := by
  induction t with
  | nil => simp [treeRead] at h
  | cons e rest ih =>
      by_cases he : e.1 = p
      · simpa [treeCreate, treeRead, he] using h
      · rw [treeRead, if_neg he] at h
        simpa [treeCreate, treeRead, he] using ih h

theorem treeRead_overwrite_ne (t : VTree) (q c p : List Char) (hne : p ≠ q) :
    treeRead (treeOverwrite t q c) p = treeRead t p := by
  induction t with
  | nil => simp [treeOverwrite]
  | cons e rest ih =>
      by_cases he : e.1 = q
      · have h1 : ¬ (q = p) := fun h => hne h.symm
        have h2 : ¬ (e.1 = p) := by rw [he]; exact h1
        simp [treeOverwrite, treeRead, he, h1, h2, ih]
      · by_cases hp : e.1 = p
        · simp [treeOverwrite, treeRead, he, hp, hne]
        · simp [treeOverwrite, treeRead, he, hp, ih]

theorem treeRead_overwrite_eq (t : VTree) (p c d : List Char)
    (h : treeRead t p = some d) : treeRead (treeOverwrite t p c) p = some c := by
  induction t with
  | nil => simp [treeRead] at h
  | cons e rest ih =>
      by_cases he : e.1 = p
      · simp [treeOverwrite, treeRead, he]
      · rw [treeRead, if_neg he] at h
        simp [treeOverwrite, treeRead, he, ih h]

theorem listStartsWith_self_append (a b : List Char) :
    listStartsWith a (a ++ b) = true := by
  induction a with
  | nil => rfl
  | cons x xs ih => simp [listStartsWith, ih]

theorem strEndsWith_append_self (x s : List Char) : strEndsWith (x ++ s) s = true := by
  unfold strEndsWith
  rw [List.reverse_append]
  exact listStartsWith_self_append _ _

theorem listStartsWith_cons_ex (a : Char) (as l : List Char)
    (h : listStartsWith (a :: as) l = true) : ∃ t, l = a :: t := by
  cases l with
  | nil => simp [listStartsWith] at h
  | cons c cs =>
      simp [listStartsWith] at h
      exact ⟨cs, by rw [h.1]⟩

/-- The emitted external file's path ends in `.html`, so it can never be a
component candidate path (which ends in `.component.ts`). -/
theorem htmlFilePathOf_ne_componentTs (p q : List Char)
    (hq : strEndsWith q componentTsSuffix = true) : htmlFilePathOf p ≠ q := by
  intro heq
  have h1 : strEndsWith q (".html".toList) = true := by
    rw [← heq]
    unfold htmlFilePathOf htmlFileNameOf
    rw [← List.append_assoc]
    exact strEndsWith_append_self _ _
  unfold strEndsWith at h1 hq
  have e1 : (".html".toList).reverse = 'l' :: "mth.".toList := by decide
  have e2 : componentTsSuffix.reverse = 's' :: "t.tnenopmoc.".toList := by decide
  rw [e1] at h1
  rw [e2] at hq
  obtain ⟨t1, ht1⟩ := listStartsWith_cons_ex _ _ _ h1
  obtain ⟨t2, ht2⟩ := listStartsWith_cons_ex _ _ _ hq
  rw [ht1] at ht2
  injection ht2 with hchar _
  exact absurd hchar (by decide)

/-- The per-file rule never touches a file other than the processed unit's
own path and the (guarded, fresh-only) external file it may create. -/
theorem processUnit_preserves_other (tree : VTree) (u : SUnit) (p c : List Char)
    (hread : treeRead tree p = some c) (hne : p ≠ u.upath) :
    treeRead (processUnit tree u).1 p = some c := by
  cases u with
  | plain q d => simpa [processUnit] using hread
  | comp f =>
      rw [SUnit.upath] at hne
      by_cases h1 : strEndsWith f.path componentTsSuffix = true
      · by_cases h2 : hasPropIdent f.kvs templateUrlName = true
        · simpa [processUnit, h1, h2] using hread
        · cases hval : getDecoratorPropertyValue f.kvs templateName with
          | none =>
              simpa [processUnit, h1, h2, hval] using hread
          | some content =>
              by_cases hh : treeHas tree (htmlFilePathOf f.path) = true
              · cases hsplit : splitAtPropIdent templateName f.entries with
                | none =>
                    simpa [processUnit, h1, h2, hval, hsplit, hh] using hread
                | some trip =>
                    obtain ⟨as, e, bs⟩ := trip
                    simp [processUnit, h1, h2, hval, hsplit, hh]
                    rw [treeRead_overwrite_ne _ _ _ _ hne]
                    exact hread
              · cases hsplit : splitAtPropIdent templateName f.entries with
                | none =>
                    simpa [processUnit, h1, h2, hval, hsplit, hh] using
                      treeRead_create_pres tree _ content p c hread
                | some trip =>
                    obtain ⟨as, e, bs⟩ := trip
                    simp [processUnit, h1, h2, hval, hsplit, hh]
                    rw [treeRead_overwrite_ne _ _ _ _ hne]
                    exact treeRead_create_pres tree _ content p c hread
      · simpa [processUnit, h1] using hread

/-- Every occurrence of the migration's replacement text in the rewritten
file: the splice output always decomposes around the inserted text. -/
theorem migrateBlockText_contains_insert (pre post ins : List Char)
    (as bs : List Entry) (e : Entry) :
    ∃ x y, migrateBlockText pre as e bs post ins = x ++ ins ++ y := by
  refine ⟨spliceOut ((blockText pre (as ++ e :: bs) post).take (entryNode pre as e).start)
      (migrationPlan pre as e bs post).removalStart
      (migrationPlan pre as e bs post).removalEnd,
    (if (migrationPlan pre as e bs post).needsCommaInserted then [','] else []) ++
      spliceOut ((blockText pre (as ++ e :: bs) post).drop (entryNode pre as e).start)
        ((migrationPlan pre as e bs post).removalStart - (entryNode pre as e).start)
        ((migrationPlan pre as e bs post).removalEnd - (entryNode pre as e).start), ?_⟩
  unfold migrateBlockText commitUpdate
  simp

theorem getValue_none_of_unusable (props : List PropKV) (nm : List Char)
    (p : PropKV) (hf : findPropIdent props nm = some p)
    (hu : isUnusableShape p.value = true) :
    getDecoratorPropertyValue props nm = none := by
  unfold getDecoratorPropertyValue
  rw [hf]
  obtain ⟨pk, pv⟩ := p
  cases pv <;> simp_all [isUnusableShape]

theorem getV2_some_implies_specLiteral (props : List PropKV) (nm : List Char)
    (v : StylesValue) (h : getDecoratorPropertyValueV2 props nm = some v) :
    specLiteralEntryPresent props nm = true := by
  unfold getDecoratorPropertyValueV2 at h
  cases hf : findPropIdent props nm with
  | none => rw [hf] at h; simp at h
  | some p =>
      rw [hf] at h
      have hpred := List.find?_some hf
      have hmem := List.mem_of_find?_eq_some hf
      unfold specLiteralEntryPresent
      rw [List.any_eq_true]
      refine ⟨p, hmem, ?_⟩
      simp only at hpred
      obtain ⟨pk, pv⟩ := p
      cases pv <;> simp_all

/-- C5: the markup migration of the variant fires only when a literal
`template` entry is present and an identifier-keyed `templateUrl` entry is
absent; the stylesheet migration fires only when a literal `styles` entry is
present and `styleUrls` is absent; the two decisions are computed from
independent guards, and on concrete blocks either fires alone. -/
theorem C5_template_and_styles_migrations_independent (props : List PropKV) :
    (templateMigrationFiresV2 props = true →
      specLiteralEntryPresent props templateName = true ∧
        hasPropIdent props templateUrlName = false) ∧
    (stylesMigrationFiresV2 props = true →
      specLiteralEntryPresent props stylesName = true ∧
        hasPropIdent props styleUrlsName = false) ∧
    (templateMigrationFiresV2 c5TemplateOnlyProps = true ∧
      stylesMigrationFiresV2 c5TemplateOnlyProps = false) ∧
    (templateMigrationFiresV2 c5StylesOnlyProps = false ∧
      stylesMigrationFiresV2 c5StylesOnlyProps = true) := by
  refine ⟨?_, ?_, by decide, by decide⟩
  · intro hf
    unfold templateMigrationFiresV2 at hf
    rw [Bool.and_eq_true] at hf
    obtain ⟨h1, h2⟩ := hf
    rw [Option.isSome_iff_exists] at h2
    obtain ⟨v, hv⟩ := h2
    exact ⟨getV2_some_implies_specLiteral props templateName v hv, by simpa using h1⟩
  · intro hf
    unfold stylesMigrationFiresV2 at hf
    rw [Bool.and_eq_true] at hf
    obtain ⟨h1, h2⟩ := hf
    rw [Option.isSome_iff_exists] at h2
    obtain ⟨v, hv⟩ := h2
    exact ⟨getV2_some_implies_specLiteral props stylesName v hv, by simpa using h1⟩

/-- Concrete instance discharging the hypothesis of the C5 theorem: the
template-only block fires the markup migration, which indeed has a literal
template entry and no templateUrl entry. -/
theorem C5_template_and_styles_migrations_independent_witness :
    templateMigrationFiresV2 c5TemplateOnlyProps = true ∧
    (specLiteralEntryPresent c5TemplateOnlyProps templateName = true ∧
      hasPropIdent c5TemplateOnlyProps templateUrlName = false) :=
  ⟨by decide,
    (C5_template_and_styles_migrations_independent c5TemplateOnlyProps).1 (by decide)⟩

/-- C6: when the computed external target path already exists before the
run, the existing file's content is byte-identical afterwards (creation is
skipped, nothing verified or overwritten), and the owning unit is still
rewritten: its new text is the splice output, which contains the
`templateUrl: './...'` reference text. -/
theorem C6_existing_target_kept_and_reference_still_rewritten
    (tree : VTree) (f : CompFile) (c t0 content : List Char)
    (hcand : strEndsWith f.path componentTsSuffix = true)
    (hguard : hasPropIdent f.kvs templateUrlName = false)
    (hval : getDecoratorPropertyValue f.kvs templateName = some content)
    (hexist : treeRead tree (htmlFilePathOf f.path) = some c)
    (hfile : treeRead tree f.path = some t0) :
    treeRead (processUnit tree (SUnit.comp f)).1 (htmlFilePathOf f.path) = some c ∧
    ∃ as e bs, splitAtPropIdent templateName f.entries = some (as, e, bs) ∧
      treeRead (processUnit tree (SUnit.comp f)).1 f.path =
        some (migrateCompText f as e bs) ∧
      ∃ x y, migrateCompText f as e bs =
        x ++ newTemplateUrlPropertyText f.path ++ y := by
  have hhas : treeHas tree (htmlFilePathOf f.path) = true := by
    unfold treeHas
    rw [hexist]
    rfl
  cases hsplit : splitAtPropIdent templateName f.entries with
  | none =>
      exfalso
      have hml := splitAtPropIdent_none templateName f.entries hsplit
      unfold getDecoratorPropertyValue at hval
      rw [show findPropIdent f.kvs templateName = none from hml] at hval
      simp at hval
  | some trip =>
      obtain ⟨as, e, bs⟩ := trip
      have hne : htmlFilePathOf f.path ≠ f.path :=
        htmlFilePathOf_ne_componentTs f.path f.path hcand
      have hg2 : ¬ hasPropIdent f.kvs templateUrlName = true := by
        rw [hguard]
        simp
      constructor
      · simp [processUnit, hcand, hg2, hval, hsplit, hhas]
        rw [treeRead_overwrite_ne _ _ _ _ hne]
        exact hexist
      · refine ⟨as, e, bs, rfl, ?_, ?_⟩
        · simp [processUnit, hcand, hg2, hval, hsplit, hhas]
          exact treeRead_overwrite_eq tree f.path _ t0 hfile
        · unfold migrateCompText
          exact migrateBlockText_contains_insert _ _ _ _ _ _

/-- Concrete instance discharging the hypotheses of the C6 theorem: the
scenario file with `/x.component.html` pre-existing with content `OLD`. -/
theorem C6_existing_target_kept_and_reference_still_rewritten_witness :
    (strEndsWith scenarioFile.path componentTsSuffix = true ∧
      treeRead c6Tree (htmlFilePathOf scenarioFile.path) = some ("OLD".toList)) ∧
    treeRead (processUnit c6Tree (SUnit.comp scenarioFile)).1
      (htmlFilePathOf scenarioFile.path) = some ("OLD".toList) :=
  ⟨⟨by decide, by decide⟩,
    (C6_existing_target_kept_and_reference_still_rewritten c6Tree scenarioFile
      ("OLD".toList) (renderComp scenarioFile) ("<p>hi</p>".toList)
      (by decide) (by decide) (by decide) (by decide) (by decide)).1⟩

/-- C7 counterexample: the claim says an entry whose value is not an
accepted literal is skipped with no file emitted and no content substituted.
On the block `styles: [foo]` — an array literal whose element is an
identifier reference, hence not an accepted literal (the spec requires every
element to be a literal string) — the variant instead fires: it emits
`/app/s.component.scss` with the empty string substituted for the unusable
element, and rewrites the unit. -/
theorem C7_nonliteral_styles_element_emits_file_with_substituted_content :
    getDecoratorPropertyValueV2 c7File.kvs stylesName =
      some (.arrVal [[]]) ∧
    treeRead (processUnitV2 c7Tree (SUnit.comp c7File))
      ("/app/s.component.scss".toList) = some [] ∧
    treeRead (processUnitV2 c7Tree (SUnit.comp c7File)) c7File.path ≠
      some (renderComp c7File) := by
  decide

theorem getValueV2_none_of_unusable (props : List PropKV) (nm : List Char)
    (p : PropKV) (hf : findPropIdent props nm = some p)
    (hu : isUnusableShape p.value = true) :
    getDecoratorPropertyValueV2 props nm = none := by
  unfold getDecoratorPropertyValueV2
  rw [hf]
  obtain ⟨pk, pv⟩ := p
  cases pv <;> simp_all [isUnusableShape]

/-- C7 (amended): a top-level `template` value of unusable shape
(identifier reference, call, spread, template interpolation) is skipped by
the rule with a diagnostic recorded and the tree left unchanged — no
external file, no edit.  A top-level `styles` value of unusable shape makes
the variant's styles phase skip silently: its skip path contains no logger
call, and the tree is again returned unchanged, with no scss file created
and no edit staged.  Only a non-literal element inside a styles array
literal escapes the guard, as the counterexample records. -/
theorem C7_top_level_unusable_value_skipped
    (tree : VTree) (f : CompFile) (as bs : List PEntry) (e : PEntry)
    (tree2 : VTree) (g : CompFile) (as2 bs2 : List PEntry) (e2 : PEntry)
    (hcand : strEndsWith f.path componentTsSuffix = true)
    (hguard : hasPropIdent f.kvs templateUrlName = false)
    (hsplit : splitAtPropIdent templateName f.entries = some (as, e, bs))
    (hshape : isUnusableShape e.kv.value = true)
    (hcand2 : strEndsWith g.path componentTsSuffix = true)
    (hnotpl : getDecoratorPropertyValueV2 g.kvs templateName = none)
    (hsplit2 : splitAtPropIdent stylesName g.entries = some (as2, e2, bs2))
    (hshape2 : isUnusableShape e2.kv.value = true) :
    ((processUnit tree (SUnit.comp f)).1 = tree ∧
      { level := DiagLevel.debug, msg := DiagMsg.skipNoInlineTemplate f.path } ∈
        (processUnit tree (SUnit.comp f)).2) ∧
    processUnitV2 tree2 (SUnit.comp g) = tree2 := by
  have hfind := (splitAtPropIdent_some templateName f.entries as bs e hsplit).2
  have hval : getDecoratorPropertyValue f.kvs templateName = none :=
    getValue_none_of_unusable f.kvs templateName e.kv hfind hshape
  have hg2 : ¬ hasPropIdent f.kvs templateUrlName = true := by
    rw [hguard]
    simp
  have hfind2 := (splitAtPropIdent_some stylesName g.entries as2 bs2 e2 hsplit2).2
  have hval2 : getDecoratorPropertyValueV2 g.kvs stylesName = none :=
    getValueV2_none_of_unusable g.kvs stylesName e2.kv hfind2 hshape2
  refine ⟨⟨?_, ?_⟩, ?_⟩
  · simp [processUnit, hcand, hg2, hval]
  · simp [processUnit, hcand, hg2, hval]
  · simp [processUnitV2, hcand2, hnotpl, hval2]

/-- Concrete instance discharging the hypotheses of the C7 theorem: a file
whose `template` value is an identifier reference is skipped with the
diagnostic recorded and the tree unchanged, and a file whose `styles` value
is an identifier reference is skipped by the variant with the tree
unchanged. -/
theorem C7_top_level_unusable_value_skipped_witness :
    (strEndsWith c7bFile.path componentTsSuffix = true ∧
      strEndsWith c7cFile.path componentTsSuffix = true ∧
      isUnusableShape (ValueShape.identifierRef ("tpl".toList)) = true ∧
      isUnusableShape (ValueShape.identifierRef ("sty".toList)) = true) ∧
    ((processUnit [] (SUnit.comp c7bFile)).1 = [] ∧
      { level := DiagLevel.debug, msg := DiagMsg.skipNoInlineTemplate c7bFile.path } ∈
        (processUnit [] (SUnit.comp c7bFile)).2) ∧
    processUnitV2 [] (SUnit.comp c7cFile) = [] :=
  ⟨⟨by decide, by decide, by decide, by decide⟩,
    C7_top_level_unusable_value_skipped [] c7bFile [] [] c7bEntry
      [] c7cFile [] [] c7cEntry
      (by decide) (by decide) (by decide) (by decide)
      (by decide) (by decide) (by decide) (by decide)⟩

theorem foldCaught_tree_indep (us : List VUnit) (tree : VTree) (ds : List Diag) :
    (us.foldl processUnitCaught (tree, ds)).1 =
      (us.foldl processUnitCaught (tree, [])).1 := by
  induction us generalizing tree ds with
  | nil => rfl
  | cons u rest ih =>
      cases u with
      | faulty p =>
          simp only [List.foldl_cons, processUnitCaught]
          exact (ih tree _).trans (ih tree _).symm
      | ok su =>
          simp only [List.foldl_cons, processUnitCaught]
          exact ih _ _

theorem foldCaught_diag_mono (us : List VUnit) (tree : VTree) (ds : List Diag)
    (d : Diag) (hd : d ∈ ds) :
    d ∈ (us.foldl processUnitCaught (tree, ds)).2 := by
  induction us generalizing tree ds with
  | nil => exact hd
  | cons u rest ih =>
      cases u with
      | faulty p =>
          simp only [List.foldl_cons, processUnitCaught]
          exact ih _ _ (by simp [hd])
      | ok su =>
          simp only [List.foldl_cons, processUnitCaught]
          exact ih _ _ hd

/-- C8: a fault raised while processing one candidate unit is recorded as an
error diagnostic and the traversal continues — the resulting tree is the one
obtained by processing every other unit, so the faulting unit's file is left
untouched — whereas a fault while enumerating candidates aborts the whole
run with a fatal diagnostic. -/
theorem C8_unit_fault_isolated_enumeration_fault_fatal
    (tree : VTree) (us1 us2 : List VUnit) (p fmsg : List Char) :
    (runCaught tree (us1 ++ VUnit.faulty p :: us2)).1 =
      (runCaught tree (us1 ++ us2)).1 ∧
    { level := DiagLevel.error, msg := DiagMsg.unitFault p } ∈
      (runCaught tree (us1 ++ VUnit.faulty p :: us2)).2 ∧
    runMigrationV2 (Except.error fmsg) tree =
      Except.error (fmsg, { level := DiagLevel.fatal, msg := DiagMsg.enumerationFault }) := by
  unfold runCaught
  rcases hmid : us1.foldl processUnitCaught (tree, []) with ⟨mt, md⟩
  rw [List.foldl_append, List.foldl_append, hmid, List.foldl_cons]
  refine ⟨?_, ?_, rfl⟩
  · show (us2.foldl processUnitCaught (processUnitCaught (mt, md) (VUnit.faulty p))).1 =
      (us2.foldl processUnitCaught (mt, md)).1
    simp only [processUnitCaught]
    rw [foldCaught_tree_indep us2 mt _, foldCaught_tree_indep us2 mt md]
  · show _ ∈ (us2.foldl processUnitCaught (processUnitCaught (mt, md) (VUnit.faulty p))).2
    simp only [processUnitCaught]
    exact foldCaught_diag_mono us2 mt _ _ (by simp)

/-- C9: a run never modifies or deletes a pre-existing file whose path is
not among the processed units' paths — it only overwrites processed units
and creates external files on paths it has checked do not exist; likewise
the variant's scss emitter preserves every readable file. -/
theorem C9_pre_existing_files_outside_units_unchanged
    (tree : VTree) (us : List SUnit) (p c : List Char)
    (hread : treeRead tree p = some c)
    (hout : ∀ u ∈ us, p ≠ u.upath) :
    treeRead (runUnits tree us) p = some c ∧
    (∀ (t : VTree) (dir base content pth cc : List Char) (i : Nat),
        treeRead t pth = some cc →
        treeRead (createScssFile t dir base content i).2 pth = some cc) := by
  constructor
  · induction us generalizing tree with
    | nil => simpa [runUnits] using hread
    | cons u rest ih =>
        rw [runUnits]
        exact ih (processUnit tree u).1
          (processUnit_preserves_other tree u p c hread (hout u (by simp)))
          (fun v hv => hout v (by simp [hv]))
  · intro t dir base content pth cc i h
    unfold createScssFile
    by_cases hh : treeHas t (dir ++ scssFileNameFor base i) = true
    · simpa [hh] using h
    · simpa [hh] using treeRead_create_pres t _ content pth cc h

/-- Concrete instance discharging the hypotheses of the C9 theorem: a file
outside the processed units keeps its content across the run. -/
theorem C9_pre_existing_files_outside_units_unchanged_witness :
    (treeRead [(("/other.txt".toList), ("KEEP".toList))] ("/other.txt".toList) =
        some ("KEEP".toList) ∧
      (∀ u ∈ [SUnit.comp scenarioFile], ("/other.txt".toList) ≠ u.upath)) ∧
    treeRead (runUnits [(("/other.txt".toList), ("KEEP".toList))]
      [SUnit.comp scenarioFile]) ("/other.txt".toList) = some ("KEEP".toList) :=
  ⟨⟨by decide, by decide⟩,
    (C9_pre_existing_files_outside_units_unchanged
      [(("/other.txt".toList), ("KEEP".toList))] [SUnit.comp scenarioFile]
      ("/other.txt".toList) ("KEEP".toList) (by decide) (by decide)).1⟩

/-- C10: the already-migrated guard tests `ts.isIdentifier(prop.name)`, so
it recognizes only bare-identifier `templateUrl` keys: any block all of
whose `templateUrl`-named keys are written otherwise (for example as a
string-literal key) passes the guard, and on the concrete block
`lbrace "templateUrl": './old.html', template: '...', selector: 'y' rbrace`
the markup migration still fires, leaving a file whose text contains two
`templateUrl` entries. -/
theorem C10_guard_only_matches_identifier_keys
    (props : List PropKV)
    (h : ∀ q ∈ props, keyIsIdentNamed q.key templateUrlName = false) :
    hasPropIdent props templateUrlName = false ∧
    treeRead (processUnit c10Tree (SUnit.comp c10File)).1 c10File.path =
      some c10NewText ∧
    countOcc templateUrlName c10NewText = 2 := by
  refine ⟨?_, by decide, by decide⟩
  unfold hasPropIdent
  rw [List.any_eq_false]
  intro q hq
  simp [h q hq]

/-- Concrete instance discharging the hypothesis of the C10 theorem: on the
block whose `templateUrl` key is a string literal, the guard reports no
`templateUrl` entry. -/
theorem C10_guard_only_matches_identifier_keys_witness :
    (∀ q ∈ c10File.kvs, keyIsIdentNamed q.key templateUrlName = false) ∧
    hasPropIdent c10File.kvs templateUrlName = false :=
  ⟨by decide, (C10_guard_only_matches_identifier_keys c10File.kvs (by decide)).1⟩

theorem isWsChar_true_cases (c : Char) (h : isWsChar c = true) :
    c = ' ' ∨ c = '\t' ∨ c = '\n' ∨ c = '\r' ∨ c = '\x0b' ∨ c = '\x0c' := by
  unfold isWsChar at h
  simp at h
  tauto

theorem not_ws_of_ident (c : Char) (h : isIdentChar c = true) : isWsChar c = false := by
  by_contra hw
  have hw' : isWsChar c = true := by
    revert hw
    cases isWsChar c <;> simp
  rcases isWsChar_true_cases c hw' with h1 | h1 | h1 | h1 | h1 | h1 <;>
    (subst h1; exact absurd h (by decide))

theorem not_ident_of_ws (c : Char) (h : isWsChar c = true) : isIdentChar c = false := by
  by_contra hi
  have hi' : isIdentChar c = true := by
    revert hi
    cases isIdentChar c <;> simp
  rw [not_ws_of_ident c hi'] at h
  exact absurd h (by simp)

theorem skipWs_ws_append (w rest : List Char) (hw : wfWsB w = true) :
    skipWs (w ++ rest) = skipWs rest := by
  induction w with
  | nil => rfl
  | cons c t ih =>
      rw [wfWsB, List.all_cons, Bool.and_eq_true] at hw
      rw [List.cons_append, skipWs, List.dropWhile_cons, if_pos hw.1]
      exact ih hw.2

theorem skipWs_cons_nonws (c : Char) (rest : List Char) (h : isWsChar c = false) :
    skipWs (c :: rest) = c :: rest := by
  rw [skipWs, List.dropWhile_cons, if_neg (by simp [h])]

theorem scanString_round (q : Char) (t rest : List Char) (h : q ∉ t) :
    scanString q (t ++ q :: rest) = some (t, rest) := by
  induction t with
  | nil => simp [scanString]
  | cons c ct ih =>
      have hcq : ¬ c = q := fun hc => h (by simp [hc])
      rw [List.cons_append, scanString, if_neg hcq, ih (fun hm => h (by simp [hm]))]

theorem ident_take_drop (nm : List Char) (d : Char) (rest : List Char)
    (hall : ∀ c ∈ nm, isIdentChar c = true) (hd : isIdentChar d = false) :
    (nm ++ d :: rest).takeWhile isIdentChar = nm ∧
      (nm ++ d :: rest).dropWhile isIdentChar = d :: rest := by
  induction nm with
  | nil =>
      constructor
      · rw [List.nil_append, List.takeWhile_cons, if_neg (by simp [hd])]
      · rw [List.nil_append, List.dropWhile_cons, if_neg (by simp [hd])]
  | cons c ct ih =>
      have hc : isIdentChar c = true := hall c (by simp)
      obtain ⟨ih1, ih2⟩ := ih (fun x hx => hall x (by simp [hx]))
      constructor
      · rw [List.cons_append, List.takeWhile_cons, if_pos (by simp [hc]), ih1]
      · rw [List.cons_append, List.dropWhile_cons, if_pos (by simp [hc]), ih2]

theorem wfNameB_parts (nm : List Char) (h : wfNameB nm = true) :
    nm ≠ [] ∧ ∀ c ∈ nm, isIdentChar c = true := by
  rw [wfNameB, Bool.and_eq_true] at h
  constructor
  · intro hnil
    rw [hnil] at h
    simpa using h.1
  · intro c hc
    exact List.all_eq_true.mp h.2 c hc

theorem renderArrElem_head (a : ArrayElem) (hwf : wfArrElemB a = true) :
    ∃ c t, renderArrElem a = c :: t ∧ isWsChar c = false ∧ ¬ c = ']' ∧
      ¬ c = rbraceChar := by
  cases a with
  | str s => exact ⟨quoteChar, s ++ [quoteChar], rfl, by decide, by decide, by decide⟩
  | tpl s => exact ⟨backtickChar, s ++ [backtickChar], rfl, by decide, by decide, by decide⟩
  | identRef nm =>
      obtain ⟨hne, hall⟩ := wfNameB_parts nm hwf
      cases nm with
      | nil => exact absurd rfl hne
      | cons c0 nt =>
          have hc0 : isIdentChar c0 = true := hall c0 (by simp)
          refine ⟨c0, nt, rfl, not_ws_of_ident c0 hc0, ?_, ?_⟩
          · intro hc
            rw [hc] at hc0
            exact absurd hc0 (by decide)
          · intro hc
            rw [hc] at hc0
            exact absurd hc0 (by decide)
  | otherElem => simp [wfArrElemB] at hwf

theorem parseArrElem_render (a : ArrayElem) (d : Char) (rest : List Char)
    (hwf : wfArrElemB a = true) (hd : isIdentChar d = false) :
    parseArrElem (renderArrElem a ++ d :: rest) = some (a, d :: rest) := by
  cases a with
  | str s =>
      have hq : quoteChar ∉ s := by simpa [wfArrElemB] using hwf
      have hshape : renderArrElem (.str s) ++ d :: rest =
          quoteChar :: (s ++ quoteChar :: (d :: rest)) := by
        simp [renderArrElem]
      rw [hshape, parseArrElem, if_pos rfl, scanString_round quoteChar s (d :: rest) hq]
  | tpl s =>
      have hq : backtickChar ∉ s := by simpa [wfArrElemB] using hwf
      have hshape : renderArrElem (.tpl s) ++ d :: rest =
          backtickChar :: (s ++ backtickChar :: (d :: rest)) := by
        simp [renderArrElem]
      rw [hshape, parseArrElem, if_neg (by decide), if_pos rfl,
        scanString_round backtickChar s (d :: rest) hq]
  | identRef nm =>
      obtain ⟨hne, hall⟩ := wfNameB_parts nm hwf
      obtain ⟨htake, hdrop⟩ := ident_take_drop nm d rest hall hd
      cases nm with
      | nil => exact absurd rfl hne
      | cons c0 nt =>
          have hc0 : isIdentChar c0 = true := hall c0 (by simp)
          have hnq : ¬ c0 = quoteChar := by
            intro hc
            rw [hc] at hc0
            exact absurd hc0 (by decide)
          have hnb : ¬ c0 = backtickChar := by
            intro hc
            rw [hc] at hc0
            exact absurd hc0 (by decide)
          rw [renderArrElem, List.cons_append, parseArrElem, if_neg hnq, if_neg hnb,
            if_pos hc0]
          rw [List.cons_append] at htake hdrop
          rw [htake, hdrop]
  | otherElem => simp [wfArrElemB] at hwf

theorem parseArrayElems_render (es : List ArrayElem) (w rest : List Char) (fuel : Nat)
    (hw : wfWsB w = true) (hwf : ∀ a ∈ es, wfArrElemB a = true)
    (hfuel : es.length + 1 ≤ fuel) :
    parseArrayElems fuel (w ++ joinCommaSpace (es.map renderArrElem) ++ ']' :: rest) =
      some (es, rest) := by
  induction es generalizing w fuel with
  | nil =>
      cases fuel with
      | zero => omega
      | succ f =>
          have hskip : skipWs (w ++ joinCommaSpace ([].map renderArrElem) ++ ']' :: rest) =
              ']' :: rest := by
            simp only [List.map_nil, joinCommaSpace, List.nil_append, List.append_nil]
            rw [skipWs_ws_append w _ hw, skipWs_cons_nonws _ _ (by decide)]
          rw [parseArrayElems, hskip]
          simp
  | cons a tail ih =>
      cases fuel with
      | zero => omega
      | succ f =>
          have hwa : wfArrElemB a = true := hwf a (by simp)
          obtain ⟨c0, t0, ha, hnw, hnbr, _⟩ := renderArrElem_head a hwa
          cases tail with
          | nil =>
              have hshape : w ++ joinCommaSpace ([a].map renderArrElem) ++ ']' :: rest =
                  w ++ (renderArrElem a ++ ']' :: rest) := by
                simp [joinCommaSpace]
              have hskip : skipWs (w ++ (renderArrElem a ++ ']' :: rest)) =
                  renderArrElem a ++ ']' :: rest := by
                rw [skipWs_ws_append w _ hw, ha, List.cons_append,
                  skipWs_cons_nonws _ _ hnw]
              rw [hshape, parseArrayElems, hskip, ha, List.cons_append]
              simp only []
              rw [if_neg hnbr, ← List.cons_append, ← ha,
                parseArrElem_render a ']' rest hwa (by decide)]
              simp [skipWs_cons_nonws ']' rest (by decide)]
          | cons b bt =>
              have hshape : w ++ joinCommaSpace ((a :: b :: bt).map renderArrElem) ++ ']' :: rest =
                  w ++ (renderArrElem a ++ ',' ::
                    (' ' :: (joinCommaSpace ((b :: bt).map renderArrElem) ++ ']' :: rest))) := by
                simp [joinCommaSpace]
              have hskip : skipWs (w ++ (renderArrElem a ++ ',' ::
                  (' ' :: (joinCommaSpace ((b :: bt).map renderArrElem) ++ ']' :: rest)))) =
                  renderArrElem a ++ ',' ::
                    (' ' :: (joinCommaSpace ((b :: bt).map renderArrElem) ++ ']' :: rest)) := by
                rw [skipWs_ws_append w _ hw, ha, List.cons_append,
                  skipWs_cons_nonws _ _ hnw]
              have hrec := ih ([' ']) f (by decide)
                (fun x hx => hwf x (by simp [hx])) (by simp at hfuel ⊢; omega)
              have hrec2 : parseArrayElems f
                  (' ' :: (joinCommaSpace (renderArrElem b :: bt.map renderArrElem) ++ ']' :: rest)) =
                  some (b :: bt, rest) := by
                simpa using hrec
              rw [hshape, parseArrayElems, hskip, ha, List.cons_append]
              simp only []
              rw [if_neg hnbr, ← List.cons_append, ← ha,
                parseArrElem_render a ',' _ hwa (by decide)]
              simp [skipWs_cons_nonws ',' _ (by decide), hrec2]

theorem skipWs_cons_ws (c : Char) (rest : List Char) (h : isWsChar c = true) :
    skipWs (c :: rest) = skipWs rest := by
  rw [skipWs, List.dropWhile_cons, if_pos (by simp [h])]
  rfl

theorem renderValueShape_head (v : ValueShape) (hwf : wfValueShapeB v = true) :
    ∃ c t, renderValueShape v = c :: t ∧ isWsChar c = false := by
  cases v with
  | stringLit t => exact ⟨quoteChar, t ++ [quoteChar], rfl, by decide⟩
  | noSubTemplateLit t => exact ⟨backtickChar, t ++ [backtickChar], rfl, by decide⟩
  | arrayLit es =>
      exact ⟨'[', joinCommaSpace (es.map renderArrElem) ++ [']'], by simp [renderValueShape], by decide⟩
  | identifierRef nm => simp [wfValueShapeB] at hwf
  | callExpr => simp [wfValueShapeB] at hwf
  | spreadElem => simp [wfValueShapeB] at hwf
  | templateExpr => simp [wfValueShapeB] at hwf

theorem parseValue_render (v : ValueShape) (rest : List Char) (fuel : Nat)
    (hwf : wfValueShapeB v = true) (hfuel : valueFuelNeed v ≤ fuel) :
    parseValue fuel (renderValueShape v ++ rest) = some (v, rest) := by
  cases v with
  | stringLit t =>
      have hq : quoteChar ∉ t := by simpa [wfValueShapeB] using hwf
      have hshape : renderValueShape (.stringLit t) ++ rest =
          quoteChar :: (t ++ quoteChar :: rest) := by
        simp [renderValueShape]
      rw [hshape, parseValue, if_neg (by decide), if_pos rfl,
        scanString_round _ _ _ hq]
  | noSubTemplateLit t =>
      have hq : backtickChar ∉ t := by simpa [wfValueShapeB] using hwf
      have hshape : renderValueShape (.noSubTemplateLit t) ++ rest =
          backtickChar :: (t ++ backtickChar :: rest) := by
        simp [renderValueShape]
      rw [hshape, parseValue, if_neg (by decide), if_neg (by decide), if_pos rfl,
        scanString_round _ _ _ hq]
  | arrayLit es =>
      have hall : ∀ a ∈ es, wfArrElemB a = true := by
        rw [wfValueShapeB] at hwf
        exact fun a ha => List.all_eq_true.mp hwf a ha
      have hshape : renderValueShape (.arrayLit es) ++ rest =
          '[' :: (joinCommaSpace (es.map renderArrElem) ++ ']' :: rest) := by
        simp [renderValueShape]
      have harr := parseArrayElems_render es [] rest fuel (by decide) hall
        (by simpa [valueFuelNeed] using hfuel)
      rw [List.nil_append] at harr
      rw [hshape, parseValue, if_pos rfl, harr]
  | identifierRef nm => simp [wfValueShapeB] at hwf
  | callExpr => simp [wfValueShapeB] at hwf
  | spreadElem => simp [wfValueShapeB] at hwf
  | templateExpr => simp [wfValueShapeB] at hwf

theorem renderKey_head (k : PropKey) (hwf : wfKeyB k = true) :
    ∃ c t, renderKey k = c :: t ∧ isWsChar c = false ∧ ¬ c = rbraceChar := by
  cases k with
  | ident nm =>
      obtain ⟨hne, hall⟩ := wfNameB_parts nm (by simpa [wfKeyB] using hwf)
      cases nm with
      | nil => exact absurd rfl hne
      | cons c0 nt =>
          have hc0 : isIdentChar c0 = true := hall c0 (by simp)
          refine ⟨c0, nt, rfl, not_ws_of_ident c0 hc0, ?_⟩
          intro hc
          rw [hc] at hc0
          exact absurd hc0 (by decide)
  | stringKey nm =>
      exact ⟨dquoteChar, nm ++ [dquoteChar], by simp [renderKey], by decide, by decide⟩
  | computed => simp [wfKeyB] at hwf

theorem parseKey_render (k : PropKey) (rest : List Char) (hwf : wfKeyB k = true) :
    parseKey (renderKey k ++ ':' :: rest) = some (k, ':' :: rest) := by
  cases k with
  | ident nm =>
      obtain ⟨hne, hall⟩ := wfNameB_parts nm (by simpa [wfKeyB] using hwf)
      obtain ⟨htake, hdrop⟩ := ident_take_drop nm ':' rest hall (by decide)
      cases nm with
      | nil => exact absurd rfl hne
      | cons c0 nt =>
          have hc0 : isIdentChar c0 = true := hall c0 (by simp)
          have hnq : ¬ c0 = dquoteChar := by
            intro hc
            rw [hc] at hc0
            exact absurd hc0 (by decide)
          rw [renderKey, List.cons_append, parseKey, if_neg hnq, if_pos hc0]
          rw [List.cons_append] at htake hdrop
          rw [htake, hdrop]
  | stringKey nm =>
      have hq : dquoteChar ∉ nm := by simpa [wfKeyB] using hwf
      have hshape : renderKey (.stringKey nm) ++ ':' :: rest =
          dquoteChar :: (nm ++ dquoteChar :: (':' :: rest)) := by
        simp [renderKey]
      rw [hshape, parseKey, if_pos rfl, scanString_round _ _ _ hq]
  | computed => simp [wfKeyB] at hwf

theorem wfPEntryB_parts (p : PEntry) (hwf : wfPEntryB p = true) :
    wfWsB p.lead = true ∧ wfKeyB p.kv.key = true ∧ wfValueShapeB p.kv.value = true ∧
      p.core = renderKey p.kv.key ++ ':' :: ' ' :: renderValueShape p.kv.value := by
  rw [wfPEntryB, Bool.and_eq_true, Bool.and_eq_true, Bool.and_eq_true] at hwf
  exact ⟨hwf.1.1.1, hwf.1.1.2, hwf.1.2, by
    have := hwf.2
    exact eq_of_beq this⟩

theorem entry_core_head (p : PEntry) (hwf : wfPEntryB p = true) :
    ∃ c t, p.core = c :: t ∧ isWsChar c = false ∧ ¬ c = rbraceChar := by
  obtain ⟨_, hk, _, hcore⟩ := wfPEntryB_parts p hwf
  obtain ⟨c, t, hck, hw, hr⟩ := renderKey_head p.kv.key hk
  exact ⟨c, t ++ ':' :: ' ' :: renderValueShape p.kv.value, by rw [hcore, hck]; simp, hw, hr⟩

theorem parseEntryKV_render (p : PEntry) (rest : List Char) (fuel : Nat)
    (hwf : wfPEntryB p = true) (hfuel : valueFuelNeed p.kv.value ≤ fuel) :
    parseEntryKV fuel (p.core ++ rest) = some (p.kv, rest) := by
  obtain ⟨_, hk, hv, hcore⟩ := wfPEntryB_parts p hwf
  obtain ⟨c0, t0, hck, hw0, _⟩ := renderKey_head p.kv.key hk
  have hshape : p.core ++ rest =
      renderKey p.kv.key ++ ':' :: (' ' :: (renderValueShape p.kv.value ++ rest)) := by
    rw [hcore]
    simp
  have hskip1 : skipWs (p.core ++ rest) = p.core ++ rest := by
    rw [hcore, hck]
    exact skipWs_cons_nonws _ _ hw0
  obtain ⟨cv, tv, hcv, hwv⟩ := renderValueShape_head p.kv.value hv
  have hskip2 : skipWs (' ' :: (renderValueShape p.kv.value ++ rest)) =
      renderValueShape p.kv.value ++ rest := by
    rw [skipWs_cons_ws _ _ (by decide), hcv, List.cons_append,
      skipWs_cons_nonws _ _ hwv]
  rw [parseEntryKV, hskip1, hshape, parseKey_render p.kv.key _ hk]
  simp only []
  rw [skipWs_cons_nonws _ _ (by decide)]
  simp only []
  rw [hskip2, parseValue_render p.kv.value rest fuel hv hfuel]

theorem parsePropsLoop_render (es : List PEntry) (w w2 rest : List Char) (fuel : Nat)
    (hw : wfWsB w = true) (hw2 : wfWsB w2 = true)
    (hwf : ∀ p ∈ es, wfPEntryB p = true)
    (hfuel : propsFuelNeed es ≤ fuel) :
    parsePropsLoop fuel
      (w ++ renderEntries (es.map PEntry.toEntry) ++ w2 ++ rbraceChar :: rest) =
      some (es.map (fun p => p.kv)) := by
  induction es generalizing w fuel with
  | nil =>
      cases fuel with
      | zero => simp [propsFuelNeed] at hfuel
      | succ f =>
          have hww : wfWsB (w ++ w2) = true := by
            rw [wfWsB, List.all_append]
            simp only [Bool.and_eq_true]
            exact ⟨hw, hw2⟩
          have hskip : skipWs (w ++ renderEntries ([].map PEntry.toEntry) ++ w2 ++
              rbraceChar :: rest) = rbraceChar :: rest := by
            simp only [List.map_nil, renderEntries, List.append_nil]
            rw [skipWs_ws_append _ _ hww, skipWs_cons_nonws _ _ (by decide)]
          rw [parsePropsLoop, hskip]
          simp
  | cons p tail ih =>
      cases fuel with
      | zero => simp [propsFuelNeed] at hfuel
      | succ f =>
          have hwp : wfPEntryB p = true := hwf p (by simp)
          obtain ⟨hlead, _, _, _⟩ := wfPEntryB_parts p hwp
          obtain ⟨c0, t0, hch, hw0, hbr⟩ := entry_core_head p hwp
          have hvfn : valueFuelNeed p.kv.value ≤ f := by
            simp [propsFuelNeed] at hfuel
            omega
          cases tail with
          | nil =>
              have hshape : w ++ renderEntries ([p].map PEntry.toEntry) ++ w2 ++
                  rbraceChar :: rest =
                  (w ++ p.lead) ++ (p.core ++ (w2 ++ rbraceChar :: rest)) := by
                simp [renderEntries, renderEntry, PEntry.toEntry]
              have hwl : wfWsB (w ++ p.lead) = true := by
                rw [wfWsB, List.all_append]
                simp only [Bool.and_eq_true]
                exact ⟨hw, hlead⟩
              have hskip : skipWs ((w ++ p.lead) ++ (p.core ++ (w2 ++ rbraceChar :: rest))) =
                  p.core ++ (w2 ++ rbraceChar :: rest) := by
                rw [skipWs_ws_append _ _ hwl, hch, List.cons_append,
                  skipWs_cons_nonws _ _ hw0]
              have hentry := parseEntryKV_render p (w2 ++ rbraceChar :: rest) f hwp hvfn
              have hskip2 : skipWs (w2 ++ rbraceChar :: rest) = rbraceChar :: rest := by
                rw [skipWs_ws_append _ _ hw2, skipWs_cons_nonws _ _ (by decide)]
              rw [hshape, parsePropsLoop, hskip, hch, List.cons_append]
              simp only []
              rw [if_neg hbr, ← List.cons_append, ← hch, hentry]
              simp only []
              rw [hskip2]
              have hne1 : ¬ rbraceChar = ',' := by decide
              simp [hne1]
          | cons q qt =>
              have hshape : w ++ renderEntries ((p :: q :: qt).map PEntry.toEntry) ++ w2 ++
                  rbraceChar :: rest =
                  (w ++ p.lead) ++ (p.core ++
                    (',' :: (renderEntries ((q :: qt).map PEntry.toEntry) ++ w2 ++
                      rbraceChar :: rest))) := by
                simp [renderEntries_cons_cons, renderEntry, PEntry.toEntry]
              have hwl : wfWsB (w ++ p.lead) = true := by
                rw [wfWsB, List.all_append]
                simp only [Bool.and_eq_true]
                exact ⟨hw, hlead⟩
              have hskip : skipWs ((w ++ p.lead) ++ (p.core ++
                  (',' :: (renderEntries ((q :: qt).map PEntry.toEntry) ++ w2 ++
                    rbraceChar :: rest)))) =
                  p.core ++ (',' :: (renderEntries ((q :: qt).map PEntry.toEntry) ++ w2 ++
                    rbraceChar :: rest)) := by
                rw [skipWs_ws_append _ _ hwl, hch, List.cons_append,
                  skipWs_cons_nonws _ _ hw0]
              have hentry := parseEntryKV_render p
                (',' :: (renderEntries ((q :: qt).map PEntry.toEntry) ++ w2 ++
                  rbraceChar :: rest)) f hwp hvfn
              have hrec := ih [] f (by decide) (fun x hx => hwf x (by simp [hx]))
                (by simp [propsFuelNeed] at hfuel ⊢; omega)
              rw [List.nil_append] at hrec
              have hrec2 : parsePropsLoop f
                  (renderEntries (q.toEntry :: qt.map PEntry.toEntry) ++
                    (w2 ++ rbraceChar :: rest)) =
                  some (q.kv :: qt.map (fun p => p.kv)) := by
                simpa using hrec
              rw [hshape, parsePropsLoop, hskip, hch, List.cons_append]
              simp only []
              rw [if_neg hbr, ← List.cons_append, ← hch, hentry]
              simp only []
              rw [skipWs_cons_nonws _ _ (by decide)]
              simp [hrec2]

theorem parsePropsLoop_jam (as : List PEntry) (d : Char) (drest : List Char)
    (fuel : Nat) (hwf : ∀ p ∈ as, wfPEntryB p = true) (hne : as ≠ [])
    (hd1 : isWsChar d = false) (hd2 : ¬ d = ',') (hd3 : ¬ d = rbraceChar)
    (hfuel : propsFuelNeed as ≤ fuel) :
    parsePropsLoop fuel (renderEntries (as.map PEntry.toEntry) ++ d :: drest) = none := by
  induction as generalizing fuel with
  | nil => exact absurd rfl hne
  | cons p tail ih =>
      cases fuel with
      | zero => simp [propsFuelNeed] at hfuel
      | succ f =>
          have hwp : wfPEntryB p = true := hwf p (by simp)
          obtain ⟨hlead, _, _, _⟩ := wfPEntryB_parts p hwp
          obtain ⟨c0, t0, hch, hw0, hbr⟩ := entry_core_head p hwp
          have hvfn : valueFuelNeed p.kv.value ≤ f := by
            simp [propsFuelNeed] at hfuel
            omega
          cases tail with
          | nil =>
              have hshape : renderEntries ([p].map PEntry.toEntry) ++ d :: drest =
                  p.lead ++ (p.core ++ (d :: drest)) := by
                simp [renderEntries, renderEntry, PEntry.toEntry]
              have hskip : skipWs (p.lead ++ (p.core ++ (d :: drest))) =
                  p.core ++ (d :: drest) := by
                rw [skipWs_ws_append _ _ hlead, hch, List.cons_append,
                  skipWs_cons_nonws _ _ hw0]
              have hentry := parseEntryKV_render p (d :: drest) f hwp hvfn
              rw [hshape, parsePropsLoop, hskip, hch, List.cons_append]
              simp only []
              rw [if_neg hbr, ← List.cons_append, ← hch, hentry]
              simp only []
              rw [skipWs_cons_nonws _ _ hd1]
              simp only []
              rw [if_neg hd2, if_neg hd3]
          | cons q qt =>
              have hshape : renderEntries ((p :: q :: qt).map PEntry.toEntry) ++ d :: drest =
                  p.lead ++ (p.core ++
                    (',' :: (renderEntries ((q :: qt).map PEntry.toEntry) ++ d :: drest))) := by
                simp [renderEntries_cons_cons, renderEntry, PEntry.toEntry]
              have hskip : skipWs (p.lead ++ (p.core ++
                  (',' :: (renderEntries ((q :: qt).map PEntry.toEntry) ++ d :: drest)))) =
                  p.core ++ (',' :: (renderEntries ((q :: qt).map PEntry.toEntry) ++
                    d :: drest)) := by
                rw [skipWs_ws_append _ _ hlead, hch, List.cons_append,
                  skipWs_cons_nonws _ _ hw0]
              have hentry := parseEntryKV_render p
                (',' :: (renderEntries ((q :: qt).map PEntry.toEntry) ++ d :: drest)) f hwp hvfn
              have hrec := ih f (fun x hx => hwf x (by simp [hx])) (by simp)
                (by simp [propsFuelNeed] at hfuel ⊢; omega)
              have hrec2 : parsePropsLoop f
                  (renderEntries (q.toEntry :: qt.map PEntry.toEntry) ++ (d :: drest)) =
                  none := by
                simpa using hrec
              rw [hshape, parsePropsLoop, hskip, hch, List.cons_append]
              simp only []
              rw [if_neg hbr, ← List.cons_append, ← hch, hentry]
              simp only []
              rw [skipWs_cons_nonws _ _ (by decide)]
              simp [hrec2]

theorem renderArrElem_len_pos (a : ArrayElem) (hwf : wfArrElemB a = true) :
    1 ≤ (renderArrElem a).length := by
  cases a with
  | str t => simp [renderArrElem]
  | tpl t => simp [renderArrElem]
  | identRef nm =>
      obtain ⟨hne, _⟩ := wfNameB_parts nm hwf
      cases nm with
      | nil => exact absurd rfl hne
      | cons c t => simp [renderArrElem]
  | otherElem => simp [wfArrElemB] at hwf

theorem join_len (es : List ArrayElem) (hwf : ∀ a ∈ es, wfArrElemB a = true) :
    es.length ≤ (joinCommaSpace (es.map renderArrElem)).length + 1 := by
  induction es with
  | nil => simp
  | cons a t ih =>
      cases t with
      | nil => simp
      | cons b bt =>
          have h1 := renderArrElem_len_pos a (hwf a (by simp))
          have h2 := ih (fun x hx => hwf x (by simp [hx]))
          simp only [List.map_cons, joinCommaSpace, List.length_cons,
            List.length_append] at h2 ⊢
          simp at h2 ⊢
          omega

theorem valueFuel_le (v : ValueShape) (hwf : wfValueShapeB v = true) :
    valueFuelNeed v ≤ (renderValueShape v).length := by
  cases v with
  | arrayLit es =>
      have hall : ∀ a ∈ es, wfArrElemB a = true := by
        rw [wfValueShapeB] at hwf
        exact fun a ha => List.all_eq_true.mp hwf a ha
      have := join_len es hall
      simp [valueFuelNeed, renderValueShape]
      omega
  | stringLit t => simp [valueFuelNeed]
  | noSubTemplateLit t => simp [valueFuelNeed]
  | identifierRef nm => simp [valueFuelNeed]
  | callExpr => simp [valueFuelNeed]
  | spreadElem => simp [valueFuelNeed]
  | templateExpr => simp [valueFuelNeed]

theorem entry_fuel_le (p : PEntry) (hwf : wfPEntryB p = true) :
    1 + valueFuelNeed p.kv.value ≤ (renderEntry (PEntry.toEntry p)).length := by
  obtain ⟨_, _, hv, hcore⟩ := wfPEntryB_parts p hwf
  have := valueFuel_le p.kv.value hv
  simp [renderEntry, PEntry.toEntry, hcore]
  omega

theorem props_fuel_le (es : List PEntry) (hwf : ∀ p ∈ es, wfPEntryB p = true) :
    propsFuelNeed es ≤ (renderEntries (es.map PEntry.toEntry)).length + 1 := by
  induction es with
  | nil => simp [propsFuelNeed, renderEntries]
  | cons p t ih =>
      have h1 := entry_fuel_le p (hwf p (by simp))
      cases t with
      | nil =>
          simp only [propsFuelNeed, List.map_cons, List.map_nil, List.length_cons,
            List.length_nil, List.sum_cons, List.sum_nil, renderEntries]
          simp
          omega
      | cons q qt =>
          have h2 := ih (fun x hx => hwf x (by simp [hx]))
          simp only [propsFuelNeed, List.map_cons, List.length_cons, List.sum_cons,
            renderEntries_cons_cons, List.length_append] at h2 ⊢
          simp at h2 ⊢
          omega

theorem dropThroughLbrace_append (pre rest : List Char) (h : lbraceChar ∉ pre) :
    dropThroughLbrace (pre ++ lbraceChar :: rest) = some rest := by
  induction pre with
  | nil => simp [dropThroughLbrace]
  | cons c t ih =>
      have hc : ¬ c = lbraceChar := fun hc => h (by simp [hc])
      rw [List.cons_append, dropThroughLbrace, if_neg hc]
      exact ih (fun hm => h (by simp [hm]))

theorem wfCompB_parts (f : CompFile) (hwf : wfCompB f = true) :
    lbraceChar ∉ f.pre ∧ (∀ p ∈ f.entries, wfPEntryB p = true) ∧
      wfWsB f.closeLead = true ∧ quoteChar ∉ f.path := by
  rw [wfCompB, Bool.and_eq_true, Bool.and_eq_true, Bool.and_eq_true] at hwf
  exact ⟨of_decide_eq_true hwf.1.1.1,
    fun p hp => List.all_eq_true.mp hwf.1.1.2 p hp,
    hwf.1.2, of_decide_eq_true hwf.2⟩

/-- The strict parser reads back exactly the decorator properties from a
well-formed candidate file's raw text. -/
theorem parseDecoratorProps_render (f : CompFile) (hwf : wfCompB f = true) :
    parseDecoratorProps (renderComp f) = some f.kvs := by
  obtain ⟨hpre, hentries, hclose, _⟩ := wfCompB_parts f hwf
  have hshape : renderComp f = f.pre ++ lbraceChar ::
      (renderEntries (f.entries.map PEntry.toEntry) ++ f.closeLead ++
        rbraceChar :: f.post) := by
    unfold renderComp
    simp
  have hdrop := dropThroughLbrace_append f.pre
    (renderEntries (f.entries.map PEntry.toEntry) ++ f.closeLead ++
      rbraceChar :: f.post) hpre
  have hfuel : propsFuelNeed f.entries ≤
      (renderEntries (f.entries.map PEntry.toEntry) ++ f.closeLead ++
        rbraceChar :: f.post).length + 1 := by
    have := props_fuel_le f.entries hentries
    simp only [List.length_append, List.length_cons]
    omega
  have hloop := parsePropsLoop_render f.entries [] f.closeLead f.post _
    (by decide) hclose hentries hfuel
  rw [List.nil_append] at hloop
  rw [parseDecoratorProps, hshape, hdrop]
  simp only []
  rw [hloop]
  rfl

theorem mem_basenameOf (c : Char) (path : List Char) (h : c ∈ basenameOf path) :
    c ∈ path := by
  unfold basenameOf at h
  rw [List.mem_reverse] at h
  have h2 := (List.takeWhile_sublist (fun x => decide ¬ x = '/')).subset h
  rw [List.mem_reverse] at h2
  exact h2

theorem mem_stripSuffixTs (c : Char) (s : List Char) (h : c ∈ stripSuffixTs s) :
    c ∈ s := by
  unfold stripSuffixTs at h
  split at h
  · exact List.take_subset _ _ h
  · exact h

theorem quote_not_in_rel (path : List Char) (h : quoteChar ∉ path) :
    quoteChar ∉ relativeHtmlPathOf path := by
  intro hm
  unfold relativeHtmlPathOf htmlFileNameOf componentBaseNameOf at hm
  rcases List.mem_append.mp hm with h1 | h2
  · exact absurd h1 (by decide)
  rcases List.mem_append.mp h2 with h3 | h4
  · exact h (mem_basenameOf _ _ (mem_stripSuffixTs _ _ h3))
  · exact absurd h4 (by decide)

theorem insertedPEntry_wf (path : List Char) (h : quoteChar ∉ path) :
    wfPEntryB (insertedPEntry path) = true := by
  have h3 : wfValueShapeB (.stringLit (relativeHtmlPathOf path)) = true := by
    simp only [wfValueShapeB, decide_eq_true_eq]
    exact quote_not_in_rel path h
  have h4 : newTemplateUrlPropertyText path =
      renderKey (.ident templateUrlName) ++ ':' :: ' ' ::
        renderValueShape (.stringLit (relativeHtmlPathOf path)) := by
    unfold newTemplateUrlPropertyText renderKey renderValueShape
    have he : ("templateUrl: ".toList) = templateUrlName ++ [':', ' '] := by decide
    rw [he]
    simp
  rw [wfPEntryB]
  simp only [insertedPEntry, Bool.and_eq_true]
  refine ⟨⟨⟨by decide, by decide⟩, h3⟩, ?_⟩
  rw [beq_iff_eq]
  exact h4

theorem takeWhile_ws_append (w : List Char) (c : Char) (rest : List Char)
    (hw : wfWsB w = true) (h1 : isWsChar c = false) :
    (w ++ c :: rest).takeWhile isWsChar = w := by
  induction w with
  | nil => rw [List.nil_append, List.takeWhile_cons, if_neg (by simp [h1])]
  | cons x t ih =>
      rw [wfWsB, List.all_cons, Bool.and_eq_true] at hw
      rw [List.cons_append, List.takeWhile_cons, if_pos (by simp [hw.1]),
        ih hw.2]

theorem commaMatchAfterLen_ws_nonComma (w : List Char) (c : Char) (rest : List Char)
    (hw : wfWsB w = true) (h1 : isWsChar c = false) (h2 : ¬ c = ',') :
    commaMatchAfterLen (w ++ c :: rest) = none := by
  have hcount : wsCount (w ++ c :: rest) = w.length := by
    rw [wsCount, takeWhile_ws_append w c rest hw h1]
  rw [commaMatchAfterLen, hcount, drop_len_append w (c :: rest)]
  simp [h2]

theorem htmlPath_not_candidate (p : List Char) :
    strEndsWith (htmlFilePathOf p) componentTsSuffix = false := by
  by_contra hw
  have hw' : strEndsWith (htmlFilePathOf p) componentTsSuffix = true := by
    revert hw
    cases strEndsWith (htmlFilePathOf p) componentTsSuffix <;> simp
  exact htmlFilePathOf_ne_componentTs p (htmlFilePathOf p) hw' rfl

theorem fires_false_of_not_candidate (p c : List Char)
    (h : strEndsWith p componentTsSuffix = false) : secondRunFires p c = false := by
  unfold secondRunFires
  rw [h]
  rfl

theorem fires_false_of_parse_none (p c : List Char)
    (h : parseDecoratorProps c = none) : secondRunFires p c = false := by
  unfold secondRunFires
  rw [h]
  simp

theorem fires_false_of_has (p c : List Char) (props : List PropKV)
    (hp : parseDecoratorProps c = some props)
    (hh : hasPropIdent props templateUrlName = true) : secondRunFires p c = false := by
  unfold secondRunFires
  rw [hp]
  simp [hh]

theorem fires_false_of_no_template (p c : List Char) (props : List PropKV)
    (hp : parseDecoratorProps c = some props)
    (hn : getDecoratorPropertyValue props templateName = none) :
    secondRunFires p c = false := by
  unfold secondRunFires
  rw [hp]
  simp [hn]

theorem getValue_none_of_find_none (props : List PropKV) (nm : List Char)
    (h : findPropIdent props nm = none) :
    getDecoratorPropertyValue props nm = none := by
  unfold getDecoratorPropertyValue
  rw [h]

theorem mem_treeCreate (t : VTree) (p c : List Char) (pc : List Char × List Char)
    (h : pc ∈ treeCreate t p c) : pc ∈ t ∨ pc = (p, c) := by
  unfold treeCreate at h
  rcases List.mem_append.mp h with h1 | h1
  · exact Or.inl h1
  · exact Or.inr (by simpa using h1)

theorem mem_treeOverwrite (t : VTree) (p c : List Char) (pc : List Char × List Char)
    (h : pc ∈ treeOverwrite t p c) : (pc ∈ t ∧ pc.1 ≠ p) ∨ pc = (p, c) := by
  induction t with
  | nil => simp [treeOverwrite] at h
  | cons x rest ih =>
      rw [treeOverwrite] at h
      rcases List.mem_cons.mp h with h1 | h1
      · by_cases hx : x.1 = p
        · rw [if_pos hx] at h1
          exact Or.inr h1
        · rw [if_neg hx] at h1
          subst h1
          exact Or.inl ⟨List.mem_cons_self _ _, hx⟩
      · rcases ih h1 with ⟨hm, hne⟩ | heq
        · exact Or.inl ⟨List.mem_cons_of_mem _ hm, hne⟩
        · exact Or.inr heq

theorem mem_renderTreeOf (us : List SUnit) (pc : List Char × List Char)
    (h : pc ∈ renderTreeOf us) : ∃ u ∈ us, pc = (u.upath, renderUnit u) := by
  unfold renderTreeOf at h
  obtain ⟨u, hu, he⟩ := List.mem_map.mp h
  exact ⟨u, hu, he.symm⟩

theorem hasPropIdent_inserted (as bs : List PEntry) (path : List Char) :
    hasPropIdent ((as ++ insertedPEntry path :: bs).map (fun p => p.kv))
      templateUrlName = true := by
  refine List.any_eq_true.mpr ⟨(insertedPEntry path).kv, ?_, ?_⟩
  · exact List.mem_map.mpr ⟨insertedPEntry path, by simp, rfl⟩
  · simp [insertedPEntry, keyIsIdentNamed]

theorem wfCompB_insert (f : CompFile) (as bs : List PEntry) (e : PEntry)
    (hwf : wfCompB f = true) (hsplit : f.entries = as ++ e :: bs) :
    wfCompB { path := f.path
              pre := f.pre
              entries := as ++ insertedPEntry f.path :: bs
              closeLead := f.closeLead
              post := f.post } = true := by
  obtain ⟨hpre, hents, hclose, hquote⟩ := wfCompB_parts f hwf
  rw [wfCompB]
  simp only [Bool.and_eq_true]
  refine ⟨⟨⟨decide_eq_true hpre, ?_⟩, hclose⟩, decide_eq_true hquote⟩
  rw [List.all_eq_true]
  intro p hp
  rcases List.mem_append.mp hp with h | h
  · exact hents p (by rw [hsplit]; exact List.mem_append.mpr (Or.inl h))
  · rcases List.mem_cons.mp h with h2 | h2
    · subst h2
      exact insertedPEntry_wf f.path hquote
    · exact hents p (by
        rw [hsplit]
        exact List.mem_append.mpr (Or.inr (List.mem_cons.mpr (Or.inr h2))))

theorem migrateCompText_middle (f : CompFile) (as : List PEntry) (e b : PEntry)
    (bs' : List PEntry) :
    migrateCompText f as e (b :: bs') =
      renderComp { path := f.path
                   pre := f.pre
                   entries := as ++ insertedPEntry f.path :: b :: bs'
                   closeLead := f.closeLead
                   post := f.post } := by
  unfold migrateCompText
  rw [List.map_cons, migrate_middle]
  unfold blockText renderComp
  simp [PEntry.toEntry, insertedPEntry]

theorem migrateCompText_single (f : CompFile) (e : PEntry) :
    migrateCompText f [] e [] =
      renderComp { path := f.path
                   pre := f.pre
                   entries := [insertedPEntry f.path]
                   closeLead := f.closeLead
                   post := f.post } := by
  unfold migrateCompText
  simp only [List.map_nil]
  rw [migrate_single]
  unfold renderComp
  simp [renderEntries, renderEntry, PEntry.toEntry, insertedPEntry]

theorem migrateCompText_last (f : CompFile) (as : List PEntry) (e : PEntry)
    (has : as ≠ []) (hclose : wfWsB f.closeLead = true) :
    migrateCompText f as e [] =
      (f.pre ++ [lbraceChar]) ++ renderEntries (as.map PEntry.toEntry) ++
        newTemplateUrlPropertyText f.path ++
        (f.closeLead ++ rbraceChar :: f.post) := by
  unfold migrateCompText
  simp only [List.map_nil]
  rw [migrate_last]
  · exact fun h => has (by simpa using h)
  · exact commaMatchAfterLen_ws_nonComma f.closeLead rbraceChar f.post hclose
      (by decide) (by decide)

theorem newTemplateUrl_head (path : List Char) :
    newTemplateUrlPropertyText path =
      't' :: ("emplateUrl: ".toList ++ [quoteChar] ++ relativeHtmlPathOf path ++
        [quoteChar]) := by
  unfold newTemplateUrlPropertyText
  have h0 : ("templateUrl: ".toList : List Char) = 't' :: "emplateUrl: ".toList := by
    decide
  rw [h0]
  simp

theorem parse_none_of_last (f : CompFile) (as : List PEntry) (e : PEntry)
    (hwf : wfCompB f = true) (hsplit : f.entries = as ++ [e]) (has : as ≠ []) :
    parseDecoratorProps (migrateCompText f as e []) = none := by
  obtain ⟨hpre, hents, hclose, _⟩ := wfCompB_parts f hwf
  rw [migrateCompText_last f as e has hclose]
  have hdrop : dropThroughLbrace
      ((f.pre ++ [lbraceChar]) ++ renderEntries (as.map PEntry.toEntry) ++
        newTemplateUrlPropertyText f.path ++ (f.closeLead ++ rbraceChar :: f.post)) =
      some (renderEntries (as.map PEntry.toEntry) ++
        't' :: (("emplateUrl: ".toList ++ [quoteChar] ++ relativeHtmlPathOf f.path ++
          [quoteChar]) ++ (f.closeLead ++ rbraceChar :: f.post))) := by
    have hargs : (f.pre ++ [lbraceChar]) ++ renderEntries (as.map PEntry.toEntry) ++
        newTemplateUrlPropertyText f.path ++ (f.closeLead ++ rbraceChar :: f.post) =
        f.pre ++ lbraceChar :: (renderEntries (as.map PEntry.toEntry) ++
          't' :: (("emplateUrl: ".toList ++ [quoteChar] ++ relativeHtmlPathOf f.path ++
            [quoteChar]) ++ (f.closeLead ++ rbraceChar :: f.post))) := by
      rw [newTemplateUrl_head]
      simp
    rw [hargs]
    exact dropThroughLbrace_append f.pre _ hpre
  have hwfas : ∀ p ∈ as, wfPEntryB p = true := by
    intro p hp
    exact hents p (by rw [hsplit]; exact List.mem_append.mpr (Or.inl hp))
  have hjam := parsePropsLoop_jam as 't'
    (("emplateUrl: ".toList ++ [quoteChar] ++ relativeHtmlPathOf f.path ++
      [quoteChar]) ++ (f.closeLead ++ rbraceChar :: f.post))
    ((renderEntries (as.map PEntry.toEntry) ++
      't' :: (("emplateUrl: ".toList ++ [quoteChar] ++ relativeHtmlPathOf f.path ++
        [quoteChar]) ++ (f.closeLead ++ rbraceChar :: f.post))).length + 1)
    hwfas has (by decide) (by decide) (by decide)
    (by
      have := props_fuel_le as hwfas
      simp only [List.length_append, List.length_cons]
      omega)
  rw [parseDecoratorProps, hdrop]
  simp only []
  exact hjam

theorem fires_false_newText (f : CompFile) (as bs : List PEntry) (e : PEntry)
    (hwf : wfCompB f = true) (hsplit : f.entries = as ++ e :: bs) :
    secondRunFires f.path (migrateCompText f as e bs) = false := by
  cases bs with
  | cons b bs' =>
      rw [migrateCompText_middle]
      refine fires_false_of_has _ _ _
        (parseDecoratorProps_render _ (wfCompB_insert f as (b :: bs') e hwf hsplit)) ?_
      exact hasPropIdent_inserted as (b :: bs') f.path
  | nil =>
      cases as with
      | nil =>
          rw [migrateCompText_single]
          refine fires_false_of_has _ _ _
            (parseDecoratorProps_render _ (wfCompB_insert f [] [] e hwf hsplit)) ?_
          exact hasPropIdent_inserted [] [] f.path
      | cons a as'' =>
          exact fires_false_of_parse_none _ _
            (parse_none_of_last f (a :: as'') e hwf hsplit (by simp))

theorem processUnit_inv (tree : VTree) (u : SUnit) (rest : List SUnit)
    (hwfu : wfUnitB u = true)
    (hinv : ∀ pc ∈ tree, secondRunFires pc.1 pc.2 = false ∨
        (∃ v ∈ rest, pc = (v.upath, renderUnit v)) ∨ pc = (u.upath, renderUnit u)) :
    ∀ pc ∈ (processUnit tree u).1, secondRunFires pc.1 pc.2 = false ∨
      ∃ v ∈ rest, pc = (v.upath, renderUnit v) := by
  intro pc hpc
  cases u with
  | plain q d =>
      rw [wfUnitB] at hwfu
      have hq : strEndsWith q componentTsSuffix = false := by simpa using hwfu
      simp only [processUnit] at hpc
      rcases hinv pc hpc with h | h | h
      · exact Or.inl h
      · exact Or.inr h
      · subst h
        exact Or.inl (fires_false_of_not_candidate q d hq)
  | comp f =>
      rw [wfUnitB] at hwfu
      obtain ⟨hpre, hents, hclose, hquote⟩ := wfCompB_parts f hwfu
      by_cases h1 : strEndsWith f.path componentTsSuffix = true
      · by_cases h2 : hasPropIdent f.kvs templateUrlName = true
        · simp [processUnit, h1, h2] at hpc
          rcases hinv pc hpc with h | h | h
          · exact Or.inl h
          · exact Or.inr h
          · subst h
            exact Or.inl (fires_false_of_has _ _ f.kvs
              (parseDecoratorProps_render f hwfu) h2)
        · cases hval : getDecoratorPropertyValue f.kvs templateName with
          | none =>
              simp [processUnit, h1, h2, hval] at hpc
              rcases hinv pc hpc with h | h | h
              · exact Or.inl h
              · exact Or.inr h
              · subst h
                exact Or.inl (fires_false_of_no_template _ _ f.kvs
                  (parseDecoratorProps_render f hwfu) hval)
          | some content =>
              cases hsplit : splitAtPropIdent templateName f.entries with
              | none =>
                  have hfind := splitAtPropIdent_none templateName f.entries hsplit
                  have hnone : getDecoratorPropertyValue f.kvs templateName = none :=
                    getValue_none_of_find_none f.kvs templateName hfind
                  rw [hval] at hnone
                  exact absurd hnone (by simp)
              | some trip =>
                  obtain ⟨as, e, bs⟩ := trip
                  obtain ⟨hentseq, _⟩ :=
                    splitAtPropIdent_some templateName f.entries as bs e hsplit
                  by_cases hh : treeHas tree (htmlFilePathOf f.path) = true
                  · simp [processUnit, h1, h2, hval, hsplit, hh] at hpc
                    rcases mem_treeOverwrite _ _ _ _ hpc with ⟨hm, hne⟩ | heq
                    · rcases hinv pc hm with h | h | h
                      · exact Or.inl h
                      · exact Or.inr h
                      · subst h
                        exact absurd rfl hne
                    · rw [heq]
                      exact Or.inl (fires_false_newText f as bs e hwfu hentseq)
                  · simp [processUnit, h1, h2, hval, hsplit, hh] at hpc
                    rcases mem_treeOverwrite _ _ _ _ hpc with ⟨hm, hne⟩ | heq
                    · rcases mem_treeCreate _ _ _ _ hm with hmt | heq2
                      · rcases hinv pc hmt with h | h | h
                        · exact Or.inl h
                        · exact Or.inr h
                        · subst h
                          exact absurd rfl hne
                      · rw [heq2]
                        exact Or.inl (fires_false_of_not_candidate _ _
                          (htmlPath_not_candidate f.path))
                    · rw [heq]
                      exact Or.inl (fires_false_newText f as bs e hwfu hentseq)
      · have hf : strEndsWith f.path componentTsSuffix = false := by
          revert h1
          cases strEndsWith f.path componentTsSuffix <;> simp
        simp [processUnit, h1] at hpc
        rcases hinv pc hpc with h | h | h
        · exact Or.inl h
        · exact Or.inr h
        · subst h
          exact Or.inl (fires_false_of_not_candidate _ _ hf)

theorem runUnits_fires_false (rem : List SUnit) (tree : VTree)
    (hwfall : ∀ v ∈ rem, wfUnitB v = true)
    (hinv : ∀ pc ∈ tree, secondRunFires pc.1 pc.2 = false ∨
        ∃ v ∈ rem, pc = (v.upath, renderUnit v)) :
    ∀ pc ∈ runUnits tree rem, secondRunFires pc.1 pc.2 = false := by
  induction rem generalizing tree with
  | nil =>
      intro pc hpc
      rw [runUnits] at hpc
      rcases hinv pc hpc with h | ⟨v, hv, _⟩
      · exact h
      · simp at hv
  | cons u rest ih =>
      intro pc hpc
      rw [runUnits] at hpc
      have hinv2 : ∀ pc ∈ tree, secondRunFires pc.1 pc.2 = false ∨
          (∃ v ∈ rest, pc = (v.upath, renderUnit v)) ∨
            pc = (u.upath, renderUnit u) := by
        intro pc2 hpc2
        rcases hinv pc2 hpc2 with h | ⟨v, hv, he⟩
        · exact Or.inl h
        · rcases List.mem_cons.mp hv with hveq | hv2
          · subst hveq
            exact Or.inr (Or.inr he)
          · exact Or.inr (Or.inl ⟨v, hv2, he⟩)
      exact ih (processUnit tree u).1
        (fun v hv => hwfall v (List.mem_cons_of_mem _ hv))
        (processUnit_inv tree u rest (hwfall u (List.mem_cons_self _ _)) hinv2)
        pc hpc

theorem filter_len_zero {α : Type} (l : List α) (p : α → Bool)
    (h : ∀ x ∈ l, p x = false) : (l.filter p).length = 0 := by
  have hnil : l.filter p = [] :=
    List.filter_eq_nil_iff.mpr (fun a ha => by simp [h a ha])
  rw [hnil]
  rfl

/-- C4: running the migration a second time over the tree a first run
produced stages no edits and creates no files.  For every well-formed input
snapshot, each file of the first run's output tree fails the second run's
effect guards: migrated files now carry the identifier-keyed `templateUrl`
entry (or, for the defective last-entry splice, no longer parse as a
decorator block at all), created `.html` siblings are not `.component.ts`
candidates, and untouched files fail the same guard that skipped them the
first time — so the second run's staged-edit count and created-file count
are both zero. -/
theorem C4_second_run_stages_no_edits (us : List SUnit)
    (hwf : ∀ u ∈ us, wfUnitB u = true) :
    (∀ pc ∈ runUnits (renderTreeOf us) us, secondRunFires pc.1 pc.2 = false) ∧
      stagedEditCount (runUnits (renderTreeOf us) us) = 0 ∧
      createdFileCount (runUnits (renderTreeOf us) us) = 0 := by
  have hall : ∀ pc ∈ runUnits (renderTreeOf us) us,
      secondRunFires pc.1 pc.2 = false := by
    refine runUnits_fires_false us (renderTreeOf us) hwf ?_
    intro pc hpc
    exact Or.inr (mem_renderTreeOf us pc hpc)
  refine ⟨hall, ?_, ?_⟩
  · rw [stagedEditCount]
    exact filter_len_zero _ _ hall
  · rw [createdFileCount]
    refine filter_len_zero _ _ (fun x hx => ?_)
    rw [hall x hx]
    rfl

theorem C4_second_run_stages_no_edits_witness :
    (∀ u ∈ [SUnit.comp scenarioFile], wfUnitB u = true) ∧
      stagedEditCount (runUnits (renderTreeOf [SUnit.comp scenarioFile])
        [SUnit.comp scenarioFile]) = 0 ∧
      createdFileCount (runUnits (renderTreeOf [SUnit.comp scenarioFile])
        [SUnit.comp scenarioFile]) = 0 :=
  ⟨by decide,
    (C4_second_run_stages_no_edits [SUnit.comp scenarioFile] (by decide)).2⟩

end MigrarTemplates
